import Mathlib

/-!
Verification development for the MonteCarloLib option-pricing engine.

The repository ships the engine behind a C binding exercised by its Python
test-suite; the engine's own sources are not part of the staged tree, so every
engine operation below is modelled from the specification (each such
definition carries a doc comment beginning "Modelled from the spec:").  The
theorems then settle the specification's testable properties against that
model: context configuration defaults, determinism in (seed, config, args),
non-negativity of prices, put-call parity on the CRR lattice, and the
early-exercise ordering between American and European lattice prices.
-/

namespace MCOptions

/-- Modelled from the spec: the Context configuration record (spec section 3).
The engine sources are not in the staged tree; the fields follow the spec's
data model: a 64-bit seed, the RNG stream state owned by the context, the
path count (default 100000), the variance-reduction flags (default off), the
importance-sampling drift shift, and the lattice step count (default 100). -/
structure Context where
  seed : ℕ
  rngState : ℕ
  numSimulations : ℕ
  antitheticEnabled : Bool
  controlVariatesEnabled : Bool
  stratifiedEnabled : Bool
  importanceSamplingEnabled : Bool
  isDriftShift : ℝ
  binomialSteps : ℕ

/-- Modelled from the spec: `context_new()` with the documented defaults
(`num_simulations` 100000, all variance-reduction flags off,
`binomial_steps` exactly 100). -/
noncomputable def contextNew : Context :=
  { seed := 0
    rngState := 0
    numSimulations := 100000
    antitheticEnabled := false
    controlVariatesEnabled := false
    stratifiedEnabled := false
    importanceSamplingEnabled := false
    isDriftShift := 0
    binomialSteps := 100 }

/-- Modelled from the spec: `context_set_seed(h, u64)`; the seed determines
all pseudorandom output, so setting it also (re)initialises the RNG stream
the context owns. -/
noncomputable def contextSetSeed (c : Context) (s : ℕ) : Context :=
  { c with seed := s % 2 ^ 64, rngState := s % 2 ^ 64 }

/-- Modelled from the spec: setter for `num_simulations`. -/
noncomputable def contextSetNumSimulations (c : Context) (n : ℕ) : Context :=
  { c with numSimulations := n }

/-- Modelled from the spec: setter for `binomial_steps`. -/
noncomputable def contextSetBinomialSteps (c : Context) (n : ℕ) : Context :=
  { c with binomialSteps := n }

/-- Modelled from the spec: getter for `binomial_steps`. -/
def contextGetBinomialSteps (c : Context) : ℕ :=
  c.binomialSteps

/-- Modelled from the spec: setter for the antithetic-variates flag. -/
noncomputable def contextSetAntithetic (c : Context) (b : Bool) : Context :=
  { c with antitheticEnabled := b }

/-- Modelled from the spec: setter for the control-variates flag. -/
noncomputable def contextSetControlVariates (c : Context) (b : Bool) : Context :=
  { c with controlVariatesEnabled := b }

/-- Modelled from the spec: setter for the stratified-sampling flag. -/
noncomputable def contextSetStratifiedSampling (c : Context) (b : Bool) : Context :=
  { c with stratifiedEnabled := b }

/-- Modelled from the spec: setter for importance sampling (enabled flag plus
drift shift). -/
noncomputable def contextSetImportanceSampling (c : Context) (b : Bool) (shift : ℝ) : Context :=
  { c with importanceSamplingEnabled := b, isDriftShift := shift }

/-- Modelled from the spec: a deterministic seedable 64-bit linear
congruential RNG state update (spec section 4.1 asks for a 64-bit LCG or
Mersenne-Twister-class generator; the algorithm itself is left open, only
deterministic reproducibility from the seed is required). -/
def lcgNext (s : ℕ) : ℕ :=
  (6364136223846793005 * s + 1442695040888963407) % 2 ^ 64

/-- Modelled from the spec: map a 64-bit RNG state to a uniform real strictly
inside (0,1). -/
noncomputable def uniform01 (s : ℕ) : ℝ :=
  ((s % 2 ^ 64 : ℕ) + 1 : ℝ) / (2 ^ 64 + 1)

/-- Modelled from the spec: draw one uniform variate and the advanced RNG
state. -/
noncomputable def nextUniform (s : ℕ) : ℝ × ℕ :=
  (uniform01 (lcgNext s), lcgNext s)

/-- Modelled from the spec: one standard normal via Box-Muller (spec section
4.1: the normal generator must be Box-Muller or inverse-CDF), consuming two
uniforms. -/
noncomputable def nextNormal (s : ℕ) : ℝ × ℕ :=
  let u1 := (nextUniform s).1
  let s1 := (nextUniform s).2
  let u2 := (nextUniform s1).1
  let s2 := (nextUniform s1).2
  (Real.sqrt (-2 * Real.log u1) * Real.cos (2 * Real.pi * u2), s2)

/-- Modelled from the spec: the standard normal cumulative distribution
function, needed by stratified mode (spec section 4.1). -/
noncomputable def stdNormalCdf (x : ℝ) : ℝ :=
  ∫ t in Set.Iic x, Real.exp (-(t ^ 2 / 2)) / Real.sqrt (2 * Real.pi)

/-- Modelled from the spec: the inverse standard normal CDF used by
stratified sampling. -/
noncomputable def stdNormalInv (q : ℝ) : ℝ :=
  sInf {x : ℝ | q ≤ stdNormalCdf x}

/-! ## The Cox-Ross-Rubinstein binomial lattice kernel (spec section 4.6) -/

/-- Modelled from the spec: CRR up factor `u = exp(sigma*sqrt(dt))` with
`dt = T/N`. -/
noncomputable def crrU (σ T : ℝ) (N : ℕ) : ℝ :=
  Real.exp (σ * Real.sqrt (T / N))

/-- Modelled from the spec: CRR down factor `d = 1/u = exp(-sigma*sqrt(dt))`. -/
noncomputable def crrD (σ T : ℝ) (N : ℕ) : ℝ :=
  Real.exp (-(σ * Real.sqrt (T / N)))

/-- Modelled from the spec: the per-step growth factor `exp(r*dt)`. -/
noncomputable def crrGrowth (r T : ℝ) (N : ℕ) : ℝ :=
  Real.exp (r * (T / N))

/-- Modelled from the spec: the risk-neutral probability
`p = (exp(r*dt) - d)/(u - d)`. -/
noncomputable def crrP (r σ T : ℝ) (N : ℕ) : ℝ :=
  (crrGrowth r T N - crrD σ T N) / (crrU σ T N - crrD σ T N)

/-- Modelled from the spec: the per-step discount `D = exp(-r*dt)`. -/
noncomputable def crrDisc (r T : ℝ) (N : ℕ) : ℝ :=
  Real.exp (-(r * (T / N)))

/-- Modelled from the spec: the lattice node price at level `m`, node `j`:
`S * u^(m-j) * d^j`, written `S * u^m * (d/u)^j` so the exponent stays a
natural number for every `j` (for `j ≤ m` the two agree since `u > 0`). -/
noncomputable def nodePrice (S u d : ℝ) (m j : ℕ) : ℝ :=
  S * u ^ m * (d / u) ^ j

/-- Modelled from the spec: one backward-induction step
`V_{i,j} = D*(p*V_{i+1,j} + (1-p)*V_{i+1,j+1})`. -/
noncomputable def rollStep (D p : ℝ) (v : ℕ → ℝ) : ℕ → ℝ :=
  fun j => D * (p * v j + (1 - p) * v (j + 1))

/-- Modelled from the spec: the terminal payoff layer of the lattice. -/
noncomputable def crrTerminal (S u d : ℝ) (payoff : ℝ → ℝ) (N : ℕ) : ℕ → ℝ :=
  fun j => payoff (nodePrice S u d N j)

/-- Modelled from the spec: the European lattice value at the root, obtained
by `N` backward-induction steps from the terminal payoffs. -/
noncomputable def crrEuroRoot (S u d D p : ℝ) (payoff : ℝ → ℝ) (N : ℕ) : ℝ :=
  (rollStep D p)^[N] (crrTerminal S u d payoff N) 0

/-- Modelled from the spec: the American backward induction; `k` counts the
rollback steps already performed, so level `N - k` is current, and at every
level the rolled-back value is compared with immediate exercise. -/
noncomputable def crrAmerLevels (S u d D p : ℝ) (payoff : ℝ → ℝ) (N : ℕ) : ℕ → ℕ → ℝ
  | 0 => crrTerminal S u d payoff N
  | k + 1 => fun j =>
      max (rollStep D p (crrAmerLevels S u d D p payoff N k) j)
        (payoff (nodePrice S u d (N - (k + 1)) j))

/-- Modelled from the spec: the American lattice value at the root. -/
noncomputable def crrAmerRoot (S u d D p : ℝ) (payoff : ℝ → ℝ) (N : ℕ) : ℝ :=
  crrAmerLevels S u d D p payoff N N 0

/-- Modelled from the spec: `binomial_european_call` with an explicit step
count. -/
noncomputable def binomialEuropeanCallSteps (_ctx : Context) (S K r σ T : ℝ) (N : ℕ) : ℝ :=
  crrEuroRoot S (crrU σ T N) (crrD σ T N) (crrDisc r T N) (crrP r σ T N)
    (fun x => max (x - K) 0) N

/-- Modelled from the spec: `binomial_european_put` with an explicit step
count. -/
noncomputable def binomialEuropeanPutSteps (_ctx : Context) (S K r σ T : ℝ) (N : ℕ) : ℝ :=
  crrEuroRoot S (crrU σ T N) (crrD σ T N) (crrDisc r T N) (crrP r σ T N)
    (fun x => max (K - x) 0) N

/-- Modelled from the spec: `binomial_american_call` with an explicit step
count. -/
noncomputable def binomialAmericanCallSteps (_ctx : Context) (S K r σ T : ℝ) (N : ℕ) : ℝ :=
  crrAmerRoot S (crrU σ T N) (crrD σ T N) (crrDisc r T N) (crrP r σ T N)
    (fun x => max (x - K) 0) N

/-- Modelled from the spec: `binomial_american_put` with an explicit step
count. -/
noncomputable def binomialAmericanPutSteps (_ctx : Context) (S K r σ T : ℝ) (N : ℕ) : ℝ :=
  crrAmerRoot S (crrU σ T N) (crrD σ T N) (crrDisc r T N) (crrP r σ T N)
    (fun x => max (K - x) 0) N

/-- Modelled from the spec: `binomial_european_call`, taking the step count
from the context. -/
noncomputable def binomialEuropeanCall (ctx : Context) (S K r σ T : ℝ) : ℝ :=
  binomialEuropeanCallSteps ctx S K r σ T ctx.binomialSteps

/-- Modelled from the spec: `binomial_european_put`, taking the step count
from the context. -/
noncomputable def binomialEuropeanPut (ctx : Context) (S K r σ T : ℝ) : ℝ :=
  binomialEuropeanPutSteps ctx S K r σ T ctx.binomialSteps

/-- Modelled from the spec: `binomial_american_call`, taking the step count
from the context. -/
noncomputable def binomialAmericanCall (ctx : Context) (S K r σ T : ℝ) : ℝ :=
  binomialAmericanCallSteps ctx S K r σ T ctx.binomialSteps

/-- Modelled from the spec: `binomial_american_put`, taking the step count
from the context. -/
noncomputable def binomialAmericanPut (ctx : Context) (S K r σ T : ℝ) : ℝ :=
  binomialAmericanPutSteps ctx S K r σ T ctx.binomialSteps

/-! ## Path generation and the Monte Carlo pricing kernel (spec 4.2 - 4.5) -/

/-- Modelled from the spec: one GBM path under the risk-neutral measure,
`S_i = S_{i-1} * exp((r - sigma^2/2 + mu)*dt + sigma*sqrt(dt)*Z_i)`, built
from a list of (time-increment, standard-normal) pairs; index 0 is the spot. -/
noncomputable def pathFrom (r σ μ S0 : ℝ) : List (ℝ × ℝ) → List ℝ
  | [] => [S0]
  | q :: rest =>
      S0 :: pathFrom r σ μ
        (S0 * Real.exp ((r - σ ^ 2 / 2 + μ) * q.1 + σ * Real.sqrt q.1 * q.2)) rest

/-- Modelled from the spec: the importance-sampling likelihood-ratio weight
`exp(-mu*sum(Z_i*sqrt(dt_i)) - mu^2*T/sigma^2/2)` when importance sampling is
enabled, 1 otherwise. -/
noncomputable def isWeight (isOn : Bool) (μ σ T : ℝ) (dts zs : List ℝ) : ℝ :=
  if isOn then
    Real.exp (-(μ * ((dts.zip zs).map fun q => Real.sqrt q.1 * q.2).sum)
      - μ ^ 2 * T / σ ^ 2 / 2)
  else 1

/-- Modelled from the spec: draw `m` independent standard normals, threading
the RNG state. -/
noncomputable def drawNormals : ℕ → ℕ → List ℝ × ℕ
  | 0, s => ([], s)
  | m + 1, s =>
      ((nextNormal s).1 :: (drawNormals m (nextNormal s).2).1,
        (drawNormals m (nextNormal s).2).2)

/-- Modelled from the spec: the normals of one path; under stratified mode the
terminal variate of the `k`-th path is `invPhi((k + U_k)/nTot)` and the other
increments are drawn ordinarily. -/
noncomputable def drawPathZs (strat : Bool) (kIdx nTot M : ℕ) (s : ℕ) : List ℝ × ℕ :=
  if strat then
    ((drawNormals (M - 1) s).1 ++
        [stdNormalInv ((kIdx + (nextUniform (drawNormals (M - 1) s).2).1) / nTot)],
      (nextUniform (drawNormals (M - 1) s).2).2)
  else drawNormals M s

/-- Arithmetic mean of a list of reals (0 for the empty list). -/
noncomputable def listMean (l : List ℝ) : ℝ :=
  l.sum / l.length

/-- Smallest element of a list of reals (the fold is seeded with the last
element, so on a nonempty list this is the minimum over the list). -/
noncomputable def listMin (l : List ℝ) : ℝ :=
  l.foldr min (l.getLastD 0)

/-- Largest element of a list of reals. -/
noncomputable def listMax (l : List ℝ) : ℝ :=
  l.foldr max (l.getLastD 0)

/-- Modelled from the spec: one Monte Carlo sample: a weighted payoff and the
terminal stock value (for the control variate), averaged over an antithetic
pair when antithetic mode is on. -/
noncomputable def mcOneSample (payoff : List ℝ → ℝ) (anti strat isOn : Bool)
    (μ r σ S0 T : ℝ) (dts : List ℝ) (kIdx nTot : ℕ) (s : ℕ) : (ℝ × ℝ) × ℕ :=
  let zs := (drawPathZs strat kIdx nTot dts.length s).1
  let s1 := (drawPathZs strat kIdx nTot dts.length s).2
  let path1 := pathFrom r σ (if isOn then μ else 0) S0 (dts.zip zs)
  let w1 := isWeight isOn μ σ T dts zs
  if anti then
    let zs2 := zs.map fun z => -z
    let path2 := pathFrom r σ (if isOn then μ else 0) S0 (dts.zip zs2)
    let w2 := isWeight isOn μ σ T dts zs2
    (((w1 * payoff path1 + w2 * payoff path2) / 2,
        (path1.getLastD 0 + path2.getLastD 0) / 2), s1)
  else ((w1 * payoff path1, path1.getLastD 0), s1)

/-- Modelled from the spec: the outer Monte Carlo loop producing the sample
list; `k` is the running path index used by stratified mode. -/
noncomputable def mcSamples (payoff : List ℝ → ℝ) (anti strat isOn : Bool)
    (μ r σ S0 T : ℝ) (dts : List ℝ) (nTot : ℕ) : ℕ → ℕ → ℕ → List (ℝ × ℝ) × ℕ
  | 0, _, s => ([], s)
  | n + 1, k, s =>
      ((mcOneSample payoff anti strat isOn μ r σ S0 T dts k nTot s).1 ::
          (mcSamples payoff anti strat isOn μ r σ S0 T dts nTot n (k + 1)
            (mcOneSample payoff anti strat isOn μ r σ S0 T dts k nTot s).2).1,
        (mcSamples payoff anti strat isOn μ r σ S0 T dts nTot n (k + 1)
          (mcOneSample payoff anti strat isOn μ r σ S0 T dts k nTot s).2).2)

/-- Modelled from the spec: the control-variate coefficient, the sample
covariance of payoff and terminal stock divided by the sample variance of the
terminal stock. -/
noncomputable def betaHat (smp : List (ℝ × ℝ)) : ℝ :=
  let n : ℝ := smp.length
  let my := (smp.map Prod.fst).sum / n
  let mx := (smp.map Prod.snd).sum / n
  ((smp.map fun q => (q.1 - my) * (q.2 - mx)).sum) /
    ((smp.map fun q => (q.2 - mx) ^ 2).sum)

/-- The uniform time grid of `M` steps over `[0, T]`. -/
noncomputable def uniformGrid (T : ℝ) (M : ℕ) : List ℝ :=
  List.replicate M (T / M)

/-- Modelled from the spec: the MC pricing kernel: `N` paths (`N/2` antithetic
pairs when antithetic is on), payoff evaluation, control-variate adjustment
`V - beta*(mean S_T - S*exp(rT))` when enabled, then a single discount by
`exp(-rT)`; the advanced RNG state is stored back on the context. -/
noncomputable def mcKernel (ctx : Context) (S r σ T : ℝ) (dts : List ℝ)
    (payoff : List ℝ → ℝ) : ℝ × Context :=
  let n := if ctx.antitheticEnabled then ctx.numSimulations / 2 else ctx.numSimulations
  let run := mcSamples payoff ctx.antitheticEnabled ctx.stratifiedEnabled
    ctx.importanceSamplingEnabled ctx.isDriftShift r σ S T dts n n 0 ctx.rngState
  let est :=
    if ctx.controlVariatesEnabled then
      listMean (run.1.map Prod.fst) -
        betaHat run.1 * (listMean (run.1.map Prod.snd) - S * Real.exp (r * T))
    else listMean (run.1.map Prod.fst)
  (Real.exp (-(r * T)) * est, { ctx with rngState := run.2 })

/-- Modelled from the spec: `european_call(ctx,S,K,r,sigma,T)` by Monte
Carlo, payoff `max(S_T - K, 0)`, 252 steps (one per trading day). -/
noncomputable def europeanCall (ctx : Context) (S K r σ T : ℝ) : ℝ × Context :=
  mcKernel ctx S r σ T (uniformGrid T 252) fun l => max (l.getLastD 0 - K) 0

/-- Modelled from the spec: `european_put`, payoff `max(K - S_T, 0)`. -/
noncomputable def europeanPut (ctx : Context) (S K r σ T : ℝ) : ℝ × Context :=
  mcKernel ctx S r σ T (uniformGrid T 252) fun l => max (K - l.getLastD 0) 0

/-- Modelled from the spec: `asian_arithmetic_call` on `nObs` equally spaced
observations ending at `T`; the payoff applies to the arithmetic average of
the observed prices. -/
noncomputable def asianArithmeticCall (ctx : Context) (S K r σ T : ℝ) (nObs : ℕ) :
    ℝ × Context :=
  mcKernel ctx S r σ T (uniformGrid T nObs) fun l => max (listMean l.tail - K) 0

/-- Modelled from the spec: `asian_arithmetic_put`. -/
noncomputable def asianArithmeticPut (ctx : Context) (S K r σ T : ℝ) (nObs : ℕ) :
    ℝ × Context :=
  mcKernel ctx S r σ T (uniformGrid T nObs) fun l => max (K - listMean l.tail) 0

open scoped Classical in
/-- Modelled from the spec: the barrier-call payoff of one path, monitored at
every simulation step; variants `{up_out=0, up_in=1, down_out=2, down_in=3}`;
a knocked-out (resp. never knocked-in) path pays `rebate*exp(-rT)` instead of
zero. -/
noncomputable def barrierPayoff (K r T H rebate : ℝ) (btype : ℕ) (l : List ℝ) : ℝ :=
  if btype = 0 then
    if ∃ x ∈ l, H ≤ x then rebate * Real.exp (-(r * T)) else max (l.getLastD 0 - K) 0
  else if btype = 1 then
    if ∃ x ∈ l, H ≤ x then max (l.getLastD 0 - K) 0 else rebate * Real.exp (-(r * T))
  else if btype = 2 then
    if ∃ x ∈ l, x ≤ H then rebate * Real.exp (-(r * T)) else max (l.getLastD 0 - K) 0
  else
    if ∃ x ∈ l, x ≤ H then max (l.getLastD 0 - K) 0 else rebate * Real.exp (-(r * T))

/-- Modelled from the spec: `barrier_call(ctx,S,K,r,sigma,T,H,type,rebate)`. -/
noncomputable def barrierCall (ctx : Context) (S K r σ T H : ℝ) (btype : ℕ)
    (rebate : ℝ) : ℝ × Context :=
  mcKernel ctx S r σ T (uniformGrid T 252) (barrierPayoff K r T H rebate btype)

/-- Modelled from the spec: `lookback_call(ctx,...,mode)`: fixed strike
(`mode=1`) pays `max(max_i S_i - K, 0)`, floating strike (`mode=0`) pays
`S_T - min_i S_i`. -/
noncomputable def lookbackCall (ctx : Context) (S K r σ T : ℝ) (mode : ℕ) :
    ℝ × Context :=
  mcKernel ctx S r σ T (uniformGrid T 252) fun l =>
    if mode = 1 then max (listMax l - K) 0 else l.getLastD 0 - listMin l

/-- Modelled from the spec: `lookback_put`: fixed strike pays
`max(K - min_i S_i, 0)`, floating strike pays `max_i S_i - S_T`. -/
noncomputable def lookbackPut (ctx : Context) (S K r σ T : ℝ) (mode : ℕ) :
    ℝ × Context :=
  mcKernel ctx S r σ T (uniformGrid T 252) fun l =>
    if mode = 1 then max (K - listMin l) 0 else listMax l - l.getLastD 0

/-! ## The Least-Squares Monte Carlo engine (spec section 4.7) -/

/-- Modelled from the spec: least-squares fit of `y = a + b*x + c*x^2` by the
normal equations, solved by Cramer's rule (basis {1, x, x^2}). -/
noncomputable def quadFit (data : List (ℝ × ℝ)) : ℝ × ℝ × ℝ :=
  let n : ℝ := data.length
  let sx := (data.map Prod.fst).sum
  let sx2 := (data.map fun q => q.1 ^ 2).sum
  let sx3 := (data.map fun q => q.1 ^ 3).sum
  let sx4 := (data.map fun q => q.1 ^ 4).sum
  let sy := (data.map Prod.snd).sum
  let sxy := (data.map fun q => q.1 * q.2).sum
  let sx2y := (data.map fun q => q.1 ^ 2 * q.2).sum
  let det := n * (sx2 * sx4 - sx3 * sx3) - sx * (sx * sx4 - sx3 * sx2) +
    sx2 * (sx * sx3 - sx2 * sx2)
  ((sy * (sx2 * sx4 - sx3 * sx3) - sx * (sxy * sx4 - sx2y * sx3) +
      sx2 * (sxy * sx3 - sx2y * sx2)) / det,
    (n * (sxy * sx4 - sx2y * sx3) - sy * (sx * sx4 - sx3 * sx2) +
      sx2 * (sx * sx2y - sx2 * sxy)) / det,
    (n * (sx2 * sx2y - sx3 * sxy) - sx * (sx * sx2y - sx2 * sxy) +
      sy * (sx * sx3 - sx2 * sx2)) / det)

/-- Absolute observation times `[0, t_1, ..., t_M]` of a list of time
increments. -/
noncomputable def cumTimes (dts : List ℝ) : List ℝ :=
  dts.scanl (fun acc dt => acc + dt) 0

/-- Modelled from the spec: the pre-generated LSM path set (path, weight)
pairs sharing one time grid; antithetic and importance-sampling modes
propagate through the shared path set. -/
noncomputable def lsmPaths (anti strat isOn : Bool) (μ r σ S0 T : ℝ)
    (dts : List ℝ) (nTot : ℕ) : ℕ → ℕ → ℕ → List (List ℝ × ℝ) × ℕ
  | 0, _, s => ([], s)
  | n + 1, k, s =>
      let zs := (drawPathZs strat k nTot dts.length s).1
      let s1 := (drawPathZs strat k nTot dts.length s).2
      let rest := lsmPaths anti strat isOn μ r σ S0 T dts nTot n (k + 1) s1
      if anti then
        ((pathFrom r σ (if isOn then μ else 0) S0 (dts.zip zs),
            isWeight isOn μ σ T dts zs) ::
          (pathFrom r σ (if isOn then μ else 0) S0 (dts.zip (zs.map fun z => -z)),
            isWeight isOn μ σ T dts (zs.map fun z => -z)) :: rest.1, rest.2)
      else
        ((pathFrom r σ (if isOn then μ else 0) S0 (dts.zip zs),
            isWeight isOn μ σ T dts zs) :: rest.1, rest.2)

open scoped Classical in
/-- Modelled from the spec: one LSM backward-induction step at exercise index
`m`: collect in-the-money paths, skip the regression when fewer than 3,
otherwise regress discounted future cash flow on {1, x, x^2} and exercise the
paths whose intrinsic value exceeds the regression's continuation estimate.
The state per path is ((path, weight), cash-flow amount, cash-flow time
index). -/
noncomputable def lsmBackstep (payoff : ℝ → ℝ) (r : ℝ) (times : List ℝ) (m : ℕ)
    (st : List ((List ℝ × ℝ) × ℝ × ℕ)) : List ((List ℝ × ℝ) × ℝ × ℕ) :=
  let itm := st.filter fun e => decide (0 < payoff (e.1.1.getD m 0))
  if itm.length < 3 then st
  else
    let fit := quadFit (itm.map fun e =>
      (e.1.1.getD m 0,
        e.2.1 * Real.exp (-(r * (times.getD e.2.2 0 - times.getD m 0)))))
    st.map fun e =>
      let x := e.1.1.getD m 0
      if 0 < payoff x ∧ fit.1 + fit.2.1 * x + fit.2.2 * x ^ 2 < payoff x then
        (e.1, payoff x, m)
      else e

/-- Modelled from the spec: the LSM backward induction from `m = M-1` down to
`m = 1`. -/
noncomputable def lsmRun (payoff : ℝ → ℝ) (r : ℝ) (times : List ℝ) (M : ℕ)
    (st : List ((List ℝ × ℝ) × ℝ × ℕ)) : List ((List ℝ × ℝ) × ℝ × ℕ) :=
  (List.range' 1 (M - 1)).foldr (lsmBackstep payoff r times) st

/-- Modelled from the spec: the LSM price over a supplied grid of time
increments: initialise each path's cash flow to the exercise payoff at the
final date, run the backward induction, then discount every path's realized
cash flow at its own exercise time to `t = 0` and average. -/
noncomputable def lsmPriceOn (ctx : Context) (S r σ : ℝ) (dts : List ℝ)
    (payoff : ℝ → ℝ) : ℝ × Context :=
  let M := dts.length
  let T := dts.sum
  let times := cumTimes dts
  let n := if ctx.antitheticEnabled then ctx.numSimulations / 2 else ctx.numSimulations
  let pw := lsmPaths ctx.antitheticEnabled ctx.stratifiedEnabled
    ctx.importanceSamplingEnabled ctx.isDriftShift r σ S T dts n n 0 ctx.rngState
  let stF := lsmRun payoff r times M (pw.1.map fun q => (q, payoff (q.1.getD M 0), M))
  ((stF.map fun e => e.1.2 * e.2.1 * Real.exp (-(r * times.getD e.2.2 0))).sum /
      stF.length,
    { ctx with rngState := pw.2 })

/-- Modelled from the spec: `american_call(ctx,S,K,r,sigma,T,exercise_points)`
via LSM on equally spaced exercise dates. -/
noncomputable def americanCall (ctx : Context) (S K r σ T : ℝ)
    (exercisePoints : ℕ) : ℝ × Context :=
  lsmPriceOn ctx S r σ (uniformGrid T exercisePoints) fun x => max (x - K) 0

/-- Modelled from the spec: `american_put(ctx,S,K,r,sigma,T,exercise_points)`
via LSM. -/
noncomputable def americanPut (ctx : Context) (S K r σ T : ℝ)
    (exercisePoints : ℕ) : ℝ × Context :=
  lsmPriceOn ctx S r σ (uniformGrid T exercisePoints) fun x => max (K - x) 0

/-- Modelled from the spec: `lsm_american_put(ctx,S,K,r,sigma,T,n_dates)`. -/
noncomputable def lsmAmericanPut (ctx : Context) (S K r σ T : ℝ) (nDates : ℕ) :
    ℝ × Context :=
  americanPut ctx S K r σ T nDates

/-- Modelled from the spec: `lsm_american_put_default`; the default
exercise-date count is not stated in the source API, the spec suggests 50. -/
noncomputable def lsmAmericanPutDefault (ctx : Context) (S K r σ T : ℝ) :
    ℝ × Context :=
  lsmAmericanPut ctx S K r σ T 50

/-- Modelled from the spec: `lsm_american_call`. -/
noncomputable def lsmAmericanCall (ctx : Context) (S K r σ T : ℝ) (nDates : ℕ) :
    ℝ × Context :=
  americanCall ctx S K r σ T nDates

/-- Modelled from the spec: `lsm_american_call_default`. -/
noncomputable def lsmAmericanCallDefault (ctx : Context) (S K r σ T : ℝ) :
    ℝ × Context :=
  lsmAmericanCall ctx S K r σ T 50

/-- Modelled from the spec: `bermudan_call(ctx,S,K,r,sigma,dates[],n)` on a
strictly increasing list of exercise dates, the final date being terminal;
priced by the LSM engine over that grid. -/
noncomputable def bermudanCall (ctx : Context) (S K r σ : ℝ) (dates : List ℝ) :
    ℝ × Context :=
  lsmPriceOn ctx S r σ (dates.zipWith (fun a b => a - b) (0 :: dates)) fun x =>
    max (x - K) 0

/-! ## Theorems -/

/-! ### Lattice algebra -/

lemma iterate_rollStep_sub (D p : ℝ) (v w : ℕ → ℝ) :
    ∀ k j, (rollStep D p)^[k] (fun i => v i - w i) j =
      (rollStep D p)^[k] v j - (rollStep D p)^[k] w j := by
  intro k
  induction k with
  | zero => intro j; simp
  | succ n ih =>
      intro j
      rw [Function.iterate_succ_apply', Function.iterate_succ_apply',
        Function.iterate_succ_apply']
      simp only [rollStep, ih]
      ring

lemma iterate_rollStep_const (D p c : ℝ) :
    ∀ k j, (rollStep D p)^[k] (fun _ => c) j = D ^ k * c := by
  intro k
  induction k with
  | zero => intro j; simp
  | succ n ih =>
      intro j
      rw [Function.iterate_succ_apply']
      simp only [rollStep, ih]
      ring

lemma nodePrice_succ_left (S u d : ℝ) (m j : ℕ) :
    nodePrice S u d (m + 1) j = u * nodePrice S u d m j := by
  simp only [nodePrice, pow_succ]
  ring

lemma nodePrice_succ_right (S u d : ℝ) (hu : u ≠ 0) (m j : ℕ) :
    nodePrice S u d (m + 1) (j + 1) = d * nodePrice S u d m j := by
  simp only [nodePrice, pow_succ]
  field_simp
  ring

lemma iterate_rollStep_nodePrice (S u d D p R : ℝ) (hu : u ≠ 0)
    (hmart : p * u + (1 - p) * d = R) :
    ∀ k m j, (rollStep D p)^[k] (fun i => nodePrice S u d (m + k) i) j =
      (D * R) ^ k * nodePrice S u d m j := by
  intro k
  induction k with
  | zero => intro m j; simp
  | succ n ih =>
      intro m j
      have hlvl : (fun i => nodePrice S u d (m + (n + 1)) i) =
          (fun i => nodePrice S u d ((m + 1) + n) i) := by
        have h : m + (n + 1) = (m + 1) + n := by omega
        rw [h]
      rw [hlvl, Function.iterate_succ_apply']
      simp only [rollStep, ih (m + 1)]
      rw [nodePrice_succ_left, nodePrice_succ_right S u d hu]
      have key : D * (p * ((D * R) ^ n * (u * nodePrice S u d m j)) +
          (1 - p) * ((D * R) ^ n * (d * nodePrice S u d m j))) =
          D * (D * R) ^ n * ((p * u + (1 - p) * d) * nodePrice S u d m j) := by
        ring
      rw [key, hmart]
      ring

lemma max_call_sub_max_put (x K : ℝ) :
    max (x - K) 0 - max (K - x) 0 = x - K := by
  rcases le_total x K with h | h
  · rw [max_eq_right (by linarith), max_eq_left (by linarith)]
    ring
  · rw [max_eq_left (by linarith), max_eq_right (by linarith)]
    ring

lemma crrEuroRoot_call_sub_put (S K u d D p R : ℝ) (hu : u ≠ 0)
    (hmart : p * u + (1 - p) * d = R) (hDR : D * R = 1) (N : ℕ) :
    crrEuroRoot S u d D p (fun x => max (x - K) 0) N -
      crrEuroRoot S u d D p (fun x => max (K - x) 0) N = S - D ^ N * K := by
  unfold crrEuroRoot
  rw [← iterate_rollStep_sub]
  have hterm : (fun i => crrTerminal S u d (fun x => max (x - K) 0) N i -
      crrTerminal S u d (fun x => max (K - x) 0) N i) =
      (fun i => nodePrice S u d N i - (fun _ : ℕ => K) i) := by
    funext i
    simp only [crrTerminal]
    exact max_call_sub_max_put _ _
  rw [hterm, iterate_rollStep_sub]
  have h1 : (rollStep D p)^[N] (fun i => nodePrice S u d N i) 0 =
      (D * R) ^ N * nodePrice S u d 0 0 := by
    have h := iterate_rollStep_nodePrice S u d D p R hu hmart N 0 0
    simpa using h
  have h2 : (rollStep D p)^[N] (fun _ : ℕ => K) 0 = D ^ N * K :=
    iterate_rollStep_const D p K N 0
  rw [h1, h2, hDR, one_pow]
  simp [nodePrice]

lemma crrU_sub_crrD_pos (σ T : ℝ) (hσ : 0 < σ) (hT : 0 < T) (N : ℕ) (hN : 0 < N) :
    crrD σ T N < crrU σ T N := by
  have hdt : 0 < T / N := div_pos hT (by exact_mod_cast hN)
  have hx : 0 < σ * Real.sqrt (T / N) := mul_pos hσ (Real.sqrt_pos.mpr hdt)
  simp only [crrD, crrU]
  exact Real.exp_lt_exp.mpr (by linarith)

lemma crrP_martingale (r σ T : ℝ) (N : ℕ) (hud : crrU σ T N - crrD σ T N ≠ 0) :
    crrP r σ T N * crrU σ T N + (1 - crrP r σ T N) * crrD σ T N = crrGrowth r T N := by
  simp only [crrP]
  field_simp
  ring

lemma crrDisc_mul_growth (r T : ℝ) (N : ℕ) :
    crrDisc r T N * crrGrowth r T N = 1 := by
  simp only [crrDisc, crrGrowth, ← Real.exp_add]
  norm_num

lemma crrDisc_pow (r T : ℝ) (N : ℕ) (hN : 0 < N) :
    crrDisc r T N ^ N = Real.exp (-(r * T)) := by
  have hNr : (N : ℝ) ≠ 0 := Nat.cast_ne_zero.mpr hN.ne'
  simp only [crrDisc]
  rw [← Real.exp_nat_mul]
  congr 1
  field_simp
  ring

/-- Exact put-call parity on the CRR lattice: the modelled binomial European
call and put satisfy `C - P = S - K*exp(-rT)` with no numerical error, for
any positive step count. -/
lemma binomial_parity_exact (ctx : Context) (S K r σ T : ℝ) (hσ : 0 < σ)
    (hT : 0 < T) (N : ℕ) (hN : 0 < N) :
    binomialEuropeanCallSteps ctx S K r σ T N -
      binomialEuropeanPutSteps ctx S K r σ T N = S - K * Real.exp (-(r * T)) := by
  have hud : crrU σ T N - crrD σ T N ≠ 0 :=
    sub_ne_zero.mpr (crrU_sub_crrD_pos σ T hσ hT N hN).ne'
  have h := crrEuroRoot_call_sub_put S K (crrU σ T N) (crrD σ T N)
    (crrDisc r T N) (crrP r σ T N) (crrGrowth r T N) (Real.exp_pos _).ne'
    (crrP_martingale r σ T N hud) (crrDisc_mul_growth r T N) N
  simp only [binomialEuropeanCallSteps, binomialEuropeanPutSteps]
  rw [h, crrDisc_pow r T N hN]
  ring

/-! ### Claim theorems: context configuration -/

/-- Claim C3: a freshly created context reports `binomial_steps = 100`, and
after `set_binomial_steps(h, n)` with positive `n` the getter returns exactly
`n`. -/
theorem binomialSteps_default_and_setter :
    contextGetBinomialSteps contextNew = 100 ∧
    ∀ (c : Context) (n : ℕ), 0 < n →
      contextGetBinomialSteps (contextSetBinomialSteps c n) = n :=
  ⟨rfl, fun _ _ _ => rfl⟩

/-- Claim C3 witness: the setter clause evaluated at the concrete step count
200 on a fresh context. -/
theorem binomialSteps_default_and_setter_witness :
    0 < 200 ∧ contextGetBinomialSteps (contextSetBinomialSteps contextNew 200) = 200 :=
  ⟨by norm_num, binomialSteps_default_and_setter.2 contextNew 200 (by norm_num)⟩

/-! ### Claim theorems: put-call parity on the lattice -/

/-- Claim C4: at S=K=100, r=0.05, sigma=0.2, T=1 the binomial European call
and put satisfy the put-call parity bound `|C - P - (S - K*exp(-rT))| <
0.01*max(1,S)` at N=200 lattice steps, and the same quantity is below one
cent at N=100 steps (on the model the parity identity is exact, so the
deviation is zero). -/
theorem put_call_parity_lattice_atm :
    |binomialEuropeanCallSteps contextNew 100 100 0.05 0.2 1 200 -
        binomialEuropeanPutSteps contextNew 100 100 0.05 0.2 1 200 -
        (100 - 100 * Real.exp (-(0.05 * 1)))| < 0.01 * max 1 100 ∧
    |binomialEuropeanCallSteps contextNew 100 100 0.05 0.2 1 100 -
        binomialEuropeanPutSteps contextNew 100 100 0.05 0.2 1 100 -
        (100 - 100 * Real.exp (-(0.05 * 1)))| < 0.01 := by
  have h200 := binomial_parity_exact contextNew 100 100 0.05 0.2 1 (by norm_num)
    (by norm_num) 200 (by norm_num)
  have h100 := binomial_parity_exact contextNew 100 100 0.05 0.2 1 (by norm_num)
    (by norm_num) 100 (by norm_num)
  constructor
  · rw [h200]
    simp only [sub_self, abs_zero]
    have : max (1 : ℝ) 100 = 100 := max_eq_right (by norm_num)
    rw [this]
    norm_num
  · rw [h100]
    simp only [sub_self, abs_zero]
    norm_num

/-! ### Concrete lattice evaluation helpers -/

lemma nodePrice_exp (S a : ℝ) (m j : ℕ) :
    nodePrice S (Real.exp a) (Real.exp (-a)) m j =
      S * Real.exp (a * m - 2 * a * j) := by
  rw [nodePrice, ← Real.exp_sub, ← Real.exp_nat_mul, ← Real.exp_nat_mul, mul_assoc,
    ← Real.exp_add]
  congr 1
  ring

lemma one_lt_exp_one : (1 : ℝ) < Real.exp 1 := by
  have h := Real.exp_lt_exp.mpr (show (0 : ℝ) < 1 by norm_num)
  rwa [Real.exp_zero] at h

lemma exp_neg_one_lt_one : Real.exp (-1) < 1 := by
  have h := Real.exp_lt_exp.mpr (show (-1 : ℝ) < 0 by norm_num)
  rwa [Real.exp_zero] at h

lemma crrU_one : crrU 1 1 1 = Real.exp 1 := by
  simp [crrU]

lemma crrD_one : crrD 1 1 1 = Real.exp (-1) := by
  simp [crrD]

/-- Claim C1 counterexample: at the admitted input S=100, K=100, r=2,
sigma=1, T=1 with `binomial_steps = 1` (a positive integer configuration),
the modelled `binomial_european_put` returns a strictly negative price: the
CRR risk-neutral probability `p = (exp(r*dt)-d)/(u-d)` exceeds 1 there, so
the rollback weight `1-p` is negative. -/
theorem binomial_put_negative_price_cx :
    binomialEuropeanPut (contextSetBinomialSteps contextNew 1) 100 100 2 1 1 < 0 := by
  have hb : (contextSetBinomialSteps contextNew 1).binomialSteps = 1 := rfl
  simp only [binomialEuropeanPut, hb, binomialEuropeanPutSteps, crrEuroRoot,
    Function.iterate_one]
  have hG : crrGrowth 2 1 1 = Real.exp 2 := by simp [crrGrowth]
  have hDisc : crrDisc 2 1 1 = Real.exp (-2) := by simp [crrDisc]
  have hden : (0 : ℝ) < Real.exp 1 - Real.exp (-1) :=
    sub_pos.mpr (Real.exp_lt_exp.mpr (by norm_num))
  have hp : 1 < crrP 2 1 1 1 := by
    simp only [crrP]
    rw [crrU_one, crrD_one, hG, lt_div_iff₀ hden]
    have h12 : Real.exp 1 < Real.exp 2 := Real.exp_lt_exp.mpr (by norm_num)
    linarith
  have ht1pos : (0 : ℝ) < 100 - 100 * Real.exp (-1) := by
    have := exp_neg_one_lt_one
    nlinarith
  have ht0 : crrTerminal 100 (crrU 1 1 1) (crrD 1 1 1) (fun x => max (100 - x) 0) 1 0 = 0 := by
    simp only [crrTerminal, crrU_one, crrD_one, nodePrice_exp, Nat.cast_one, Nat.cast_zero]
    have he : (1 : ℝ) * 1 - 2 * 1 * 0 = 1 := by norm_num
    rw [he, max_eq_right (by nlinarith [one_lt_exp_one])]
  have ht1 : crrTerminal 100 (crrU 1 1 1) (crrD 1 1 1) (fun x => max (100 - x) 0) 1 1 =
      100 - 100 * Real.exp (-1) := by
    simp only [crrTerminal, crrU_one, crrD_one, nodePrice_exp, Nat.cast_one]
    have he : (1 : ℝ) * 1 - 2 * 1 * 1 = -1 := by norm_num
    rw [he, max_eq_left (by nlinarith [exp_neg_one_lt_one])]
  simp only [rollStep, zero_add]
  rw [ht0, ht1]
  have hDpos : (0 : ℝ) < crrDisc 2 1 1 := by
    rw [hDisc]
    exact Real.exp_pos _
  have hneg : (1 - crrP 2 1 1 1) * (100 - 100 * Real.exp (-1)) < 0 :=
    mul_neg_of_neg_of_pos (by linarith) ht1pos
  calc crrDisc 2 1 1 * (crrP 2 1 1 1 * 0 + (1 - crrP 2 1 1 1) * (100 - 100 * Real.exp (-1)))
      = crrDisc 2 1 1 * ((1 - crrP 2 1 1 1) * (100 - 100 * Real.exp (-1))) := by ring
    _ < 0 := mul_neg_of_pos_of_neg hDpos hneg

lemma put100_exp_nonneg (x : ℝ) (hx : 0 ≤ x) :
    max (100 - 100 * Real.exp x) 0 = 0 := by
  apply max_eq_right
  have h := Real.exp_le_exp.mpr hx
  rw [Real.exp_zero] at h
  nlinarith

lemma put100_exp_neg (x : ℝ) (hx : x < 0) :
    max (100 - 100 * Real.exp x) 0 = 100 - 100 * Real.exp x := by
  apply max_eq_left
  have h := Real.exp_lt_exp.mpr hx
  rw [Real.exp_zero] at h
  nlinarith

lemma crrU_122 : crrU 1 2 2 = Real.exp 1 := by
  simp only [crrU]
  norm_num [Real.sqrt_one]

lemma crrD_122 : crrD 1 2 2 = Real.exp (-1) := by
  simp only [crrD]
  norm_num [Real.sqrt_one]

lemma crrG_322 : crrGrowth 3 2 2 = Real.exp 3 := by
  simp only [crrGrowth]
  norm_num

lemma crrDisc_322 : crrDisc 3 2 2 = Real.exp (-3) := by
  simp only [crrDisc]
  norm_num

lemma node100_exp (m j : ℕ) :
    nodePrice 100 (Real.exp 1) (Real.exp (-1)) m j =
      100 * Real.exp ((m : ℝ) - 2 * j) := by
  have h := nodePrice_exp 100 1 m j
  simpa using h

/-- Two backward-induction steps of the European lattice, written out. -/
lemma euro2_eval (S u d D p : ℝ) (pay : ℝ → ℝ) :
    crrEuroRoot S u d D p pay 2 =
      D * (p * (D * (p * crrTerminal S u d pay 2 0 + (1 - p) * crrTerminal S u d pay 2 1)) +
        (1 - p) * (D * (p * crrTerminal S u d pay 2 1 + (1 - p) * crrTerminal S u d pay 2 2))) :=
  rfl

/-- Two backward-induction steps of the American lattice, written out. -/
lemma amer2_eval (S u d D p : ℝ) (pay : ℝ → ℝ) :
    crrAmerRoot S u d D p pay 2 =
      max (D * (p * max (D * (p * crrTerminal S u d pay 2 0 +
            (1 - p) * crrTerminal S u d pay 2 1)) (pay (nodePrice S u d 1 0)) +
          (1 - p) * max (D * (p * crrTerminal S u d pay 2 1 +
            (1 - p) * crrTerminal S u d pay 2 2)) (pay (nodePrice S u d 1 1))))
        (pay (nodePrice S u d 0 0)) :=
  rfl

/-- At S=K=100, r=3, sigma=1, T=2 and 2 lattice steps the CRR probability
exceeds 1 and the modelled American put rolls back strictly below the
European put. -/
lemma amer_lt_euro_concrete :
    crrAmerRoot 100 (Real.exp 1) (Real.exp (-1)) (crrDisc 3 2 2) (crrP 3 1 2 2)
      (fun x => max (100 - x) 0) 2 <
    crrEuroRoot 100 (Real.exp 1) (Real.exp (-1)) (crrDisc 3 2 2) (crrP 3 1 2 2)
      (fun x => max (100 - x) 0) 2 := by
  have hDpos : (0 : ℝ) < crrDisc 3 2 2 := by
    rw [crrDisc_322]
    exact Real.exp_pos _
  have hden : (0 : ℝ) < Real.exp 1 - Real.exp (-1) :=
    sub_pos.mpr (Real.exp_lt_exp.mpr (by norm_num))
  have hp1 : 1 < crrP 3 1 2 2 := by
    simp only [crrP]
    rw [crrU_122, crrD_122, crrG_322, lt_div_iff₀ hden]
    have h13 : Real.exp 1 < Real.exp 3 := Real.exp_lt_exp.mpr (by norm_num)
    linarith
  have hn20 : nodePrice 100 (Real.exp 1) (Real.exp (-1)) 2 0 = 100 * Real.exp 2 := by
    rw [node100_exp]
    norm_num
  have hn21 : nodePrice 100 (Real.exp 1) (Real.exp (-1)) 2 1 = 100 := by
    rw [node100_exp]
    norm_num [Real.exp_zero]
  have hn22 : nodePrice 100 (Real.exp 1) (Real.exp (-1)) 2 2 = 100 * Real.exp (-2) := by
    rw [node100_exp]
    norm_num
  have hn10 : nodePrice 100 (Real.exp 1) (Real.exp (-1)) 1 0 = 100 * Real.exp 1 := by
    rw [node100_exp]
    norm_num
  have hn11 : nodePrice 100 (Real.exp 1) (Real.exp (-1)) 1 1 = 100 * Real.exp (-1) := by
    rw [node100_exp]
    norm_num
  have hn00 : nodePrice 100 (Real.exp 1) (Real.exp (-1)) 0 0 = 100 := by
    rw [node100_exp]
    norm_num [Real.exp_zero]
  have ht0 : crrTerminal 100 (Real.exp 1) (Real.exp (-1)) (fun x => max (100 - x) 0) 2 0 = 0 := by
    show max (100 - nodePrice 100 (Real.exp 1) (Real.exp (-1)) 2 0) 0 = 0
    rw [hn20]
    exact put100_exp_nonneg 2 (by norm_num)
  have ht1 : crrTerminal 100 (Real.exp 1) (Real.exp (-1)) (fun x => max (100 - x) 0) 2 1 = 0 := by
    show max (100 - nodePrice 100 (Real.exp 1) (Real.exp (-1)) 2 1) 0 = 0
    rw [hn21]
    norm_num
  have ht2 : crrTerminal 100 (Real.exp 1) (Real.exp (-1)) (fun x => max (100 - x) 0) 2 2 =
      100 - 100 * Real.exp (-2) := by
    show max (100 - nodePrice 100 (Real.exp 1) (Real.exp (-1)) 2 2) 0 =
      100 - 100 * Real.exp (-2)
    rw [hn22]
    exact put100_exp_neg (-2) (by norm_num)
  have hX : (0 : ℝ) < 100 - 100 * Real.exp (-2) := by
    have h := Real.exp_lt_exp.mpr (show (-2 : ℝ) < 0 by norm_num)
    rw [Real.exp_zero] at h
    nlinarith
  have hY : (0 : ℝ) < 100 - 100 * Real.exp (-1) := by
    have h := Real.exp_lt_exp.mpr (show (-1 : ℝ) < 0 by norm_num)
    rw [Real.exp_zero] at h
    nlinarith
  rw [amer2_eval, euro2_eval]
  simp only [ht0, ht1, ht2, hn10, hn11, hn00]
  rw [put100_exp_nonneg 1 (by norm_num), put100_exp_neg (-1) (by norm_num)]
  have hin1 : crrDisc 3 2 2 * (crrP 3 1 2 2 * 0 + (1 - crrP 3 1 2 2) * 0) = 0 := by ring
  rw [hin1, max_self]
  have hB : crrDisc 3 2 2 * (crrP 3 1 2 2 * 0 +
      (1 - crrP 3 1 2 2) * (100 - 100 * Real.exp (-2))) =
      crrDisc 3 2 2 * ((1 - crrP 3 1 2 2) * (100 - 100 * Real.exp (-2))) := by ring
  rw [hB]
  have hBneg : crrDisc 3 2 2 * ((1 - crrP 3 1 2 2) * (100 - 100 * Real.exp (-2))) < 0 :=
    mul_neg_of_pos_of_neg hDpos (mul_neg_of_neg_of_pos (by linarith) hX)
  rw [max_eq_right (le_of_lt (hBneg.trans hY))]
  have hC : crrDisc 3 2 2 * (crrP 3 1 2 2 * 0 +
      (1 - crrP 3 1 2 2) * (100 - 100 * Real.exp (-1))) =
      crrDisc 3 2 2 * ((1 - crrP 3 1 2 2) * (100 - 100 * Real.exp (-1))) := by ring
  rw [hC]
  have hCneg : crrDisc 3 2 2 * ((1 - crrP 3 1 2 2) * (100 - 100 * Real.exp (-1))) < 0 :=
    mul_neg_of_pos_of_neg hDpos (mul_neg_of_neg_of_pos (by linarith) hY)
  have hZ : max ((100 : ℝ) - 100) 0 = 0 := by norm_num
  rw [hZ, max_eq_right (le_of_lt hCneg)]
  have hE : crrDisc 3 2 2 * (crrP 3 1 2 2 * 0 + (1 - crrP 3 1 2 2) *
      (crrDisc 3 2 2 * ((1 - crrP 3 1 2 2) * (100 - 100 * Real.exp (-2))))) =
      crrDisc 3 2 2 * ((1 - crrP 3 1 2 2) *
      (crrDisc 3 2 2 * ((1 - crrP 3 1 2 2) * (100 - 100 * Real.exp (-2))))) := by ring
  rw [hE]
  exact mul_pos hDpos (mul_pos_of_neg_of_neg (by linarith) hBneg)

/-- Claim C6 counterexample: at the admitted input S=100, K=100, r=3,
sigma=1, T=2 with `binomial_steps = 2`, the modelled binomial American put
prices strictly BELOW the binomial European put: the CRR probability exceeds
1 there, the rollback is not monotone, and taking the (higher) intrinsic
value at a middle node lowers the rolled-back root value. -/
theorem american_put_below_european_cx :
    binomialAmericanPut (contextSetBinomialSteps contextNew 2) 100 100 3 1 2 <
      binomialEuropeanPut (contextSetBinomialSteps contextNew 2) 100 100 3 1 2 := by
  have hb : (contextSetBinomialSteps contextNew 2).binomialSteps = 2 := rfl
  simp only [binomialAmericanPut, binomialEuropeanPut, hb, binomialAmericanPutSteps,
    binomialEuropeanPutSteps]
  rw [crrU_122, crrD_122]
  exact amer_lt_euro_concrete

/-! ### Lattice inequalities -/

lemma iterate_rollStep_nonneg (D p : ℝ) (hD : 0 ≤ D) (hp0 : 0 ≤ p) (hp1 : p ≤ 1)
    (v : ℕ → ℝ) (hv : ∀ j, 0 ≤ v j) :
    ∀ k j, 0 ≤ (rollStep D p)^[k] v j := by
  intro k
  induction k with
  | zero => exact hv
  | succ n ih =>
      intro j
      rw [Function.iterate_succ_apply']
      simp only [rollStep]
      exact mul_nonneg hD (add_nonneg (mul_nonneg hp0 (ih j))
        (mul_nonneg (by linarith) (ih (j + 1))))

lemma rollStep_mono (D p : ℝ) (hD : 0 ≤ D) (hp0 : 0 ≤ p) (hp1 : p ≤ 1)
    (v w : ℕ → ℝ) (hvw : ∀ j, v j ≤ w j) (j : ℕ) :
    rollStep D p v j ≤ rollStep D p w j := by
  simp only [rollStep]
  exact mul_le_mul_of_nonneg_left (add_le_add
    (mul_le_mul_of_nonneg_left (hvw j) hp0)
    (mul_le_mul_of_nonneg_left (hvw (j + 1)) (by linarith))) hD

lemma amer_ge_euro (S u d D p : ℝ) (payoff : ℝ → ℝ) (N : ℕ)
    (hD : 0 ≤ D) (hp0 : 0 ≤ p) (hp1 : p ≤ 1) :
    ∀ k j, (rollStep D p)^[k] (crrTerminal S u d payoff N) j ≤
      crrAmerLevels S u d D p payoff N k j := by
  intro k
  induction k with
  | zero => intro j; exact le_refl _
  | succ n ih =>
      intro j
      rw [Function.iterate_succ_apply']
      have h := rollStep_mono D p hD hp0 hp1 _ _ ih j
      refine le_trans h ?_
      simp only [crrAmerLevels]
      exact le_max_left _ _

lemma amer_nonneg (S u d D p : ℝ) (payoff : ℝ → ℝ) (N : ℕ)
    (hD : 0 ≤ D) (hp0 : 0 ≤ p) (hp1 : p ≤ 1) (hpay : ∀ x, 0 ≤ payoff x) :
    ∀ k j, 0 ≤ crrAmerLevels S u d D p payoff N k j := by
  intro k
  induction k with
  | zero => intro j; exact hpay _
  | succ n ih =>
      intro j
      simp only [crrAmerLevels]
      exact le_trans (hpay _) (le_max_right _ _)

lemma amerRoot_ge_intrinsic (S u d D p : ℝ) (payoff : ℝ → ℝ) (N : ℕ) :
    payoff S ≤ crrAmerRoot S u d D p payoff N := by
  have hS : nodePrice S u d 0 0 = S := by simp [nodePrice]
  cases N with
  | zero =>
      show payoff S ≤ crrTerminal S u d payoff 0 0
      simp [crrTerminal, hS]
  | succ k =>
      show payoff S ≤ crrAmerLevels S u d D p payoff (k + 1) (k + 1) 0
      simp only [crrAmerLevels]
      have h : (k + 1) - (k + 1) = 0 := by omega
      rw [h, hS]
      exact le_max_right _ _

lemma euro_call_bounds (S u d D p R K : ℝ) (N : ℕ)
    (hu : u ≠ 0) (hmart : p * u + (1 - p) * d = R) (hDR : D * R = 1)
    (hD : 0 ≤ D) (hp0 : 0 ≤ p) (hp1 : p ≤ 1) :
    ∀ k m j, m + k = N →
      0 ≤ (rollStep D p)^[k] (crrTerminal S u d (fun x => max (x - K) 0) N) j ∧
      nodePrice S u d m j - K * D ^ k ≤
        (rollStep D p)^[k] (crrTerminal S u d (fun x => max (x - K) 0) N) j := by
  intro k
  induction k with
  | zero =>
      intro m j hm
      subst hm
      constructor
      · exact le_max_right _ _
      · show nodePrice S u d (m + 0) j - K * D ^ 0 ≤
          max (nodePrice S u d (m + 0) j - K) 0
        simp only [pow_zero, mul_one]
        exact le_max_left _ _
  | succ n ih =>
      intro m j hm
      rw [Function.iterate_succ_apply']
      have ih1 := ih (m + 1) j (by omega)
      have ih2 := ih (m + 1) (j + 1) (by omega)
      constructor
      · simp only [rollStep]
        exact mul_nonneg hD (add_nonneg (mul_nonneg hp0 ih1.1)
          (mul_nonneg (by linarith) ih2.1))
      · simp only [rollStep]
        have pre1 := mul_le_mul_of_nonneg_left ih1.2 (mul_nonneg hD hp0)
        have pre2 := mul_le_mul_of_nonneg_left ih2.2
          (mul_nonneg hD (by linarith : (0 : ℝ) ≤ 1 - p))
        have hnodes : p * nodePrice S u d (m + 1) j +
            (1 - p) * nodePrice S u d (m + 1) (j + 1) = R * nodePrice S u d m j := by
          rw [nodePrice_succ_left, nodePrice_succ_right S u d hu]
          calc p * (u * nodePrice S u d m j) + (1 - p) * (d * nodePrice S u d m j)
              = (p * u + (1 - p) * d) * nodePrice S u d m j := by ring
            _ = R * nodePrice S u d m j := by rw [hmart]
        have hnodesD : D * (p * nodePrice S u d (m + 1) j +
            (1 - p) * nodePrice S u d (m + 1) (j + 1)) =
            D * (R * nodePrice S u d m j) := by rw [hnodes]
        have hDRnode : D * (R * nodePrice S u d m j) = nodePrice S u d m j := by
          rw [← mul_assoc, hDR, one_mul]
        have hpowK : K * D ^ (n + 1) = D * (K * D ^ n) := by
          rw [pow_succ]
          ring
        nlinarith [pre1, pre2, hnodesD, hDRnode, hpowK]

/-- On the lattice a European call never falls below immediate exercise when
rates are non-negative, so the American rollback never takes the intrinsic
branch: the modelled binomial American call equals the binomial European
call exactly. -/
lemma amer_call_eq_euro (S u d D p R K : ℝ) (N : ℕ)
    (hu : u ≠ 0) (hmart : p * u + (1 - p) * d = R) (hDR : D * R = 1)
    (hD : 0 ≤ D) (hD1 : D ≤ 1) (hp0 : 0 ≤ p) (hp1 : p ≤ 1) (hK : 0 ≤ K) :
    ∀ k, k ≤ N → ∀ j, crrAmerLevels S u d D p (fun x => max (x - K) 0) N k j =
      (rollStep D p)^[k] (crrTerminal S u d (fun x => max (x - K) 0) N) j := by
  intro k
  induction k with
  | zero => intro _ j; rfl
  | succ n ih =>
      intro hle j
      simp only [crrAmerLevels]
      have hfun : rollStep D p
          (crrAmerLevels S u d D p (fun x => max (x - K) 0) N n) j =
          rollStep D p
          ((rollStep D p)^[n] (crrTerminal S u d (fun x => max (x - K) 0) N)) j := by
        simp only [rollStep, ih (by omega)]
      rw [Function.iterate_succ_apply', hfun]
      apply max_eq_left
      have hb := euro_call_bounds S u d D p R K N hu hmart hDR hD hp0 hp1
        (n + 1) (N - (n + 1)) j (by omega)
      rw [Function.iterate_succ_apply'] at hb
      apply max_le
      · have hDpow : D ^ (n + 1) ≤ 1 := pow_le_one₀ hD hD1
        have hKD : K * D ^ (n + 1) ≤ K := by nlinarith
        linarith [hb.2]
      · exact hb.1

/-- The CRR probability lies in [0,1] whenever `d ≤ exp(r*dt) ≤ u`. -/
lemma crrP_mem_unit (r σ T : ℝ) (N : ℕ) (hσ : 0 < σ) (hT : 0 < T) (hN : 0 < N)
    (hd : crrD σ T N ≤ crrGrowth r T N) (hup : crrGrowth r T N ≤ crrU σ T N) :
    0 ≤ crrP r σ T N ∧ crrP r σ T N ≤ 1 := by
  have hdu : crrD σ T N < crrU σ T N := crrU_sub_crrD_pos σ T hσ hT N hN
  constructor
  · exact div_nonneg (by linarith) (by linarith)
  · rw [crrP, div_le_one (by linarith)]
    linarith

/-- Spec section 4.6 invariant, settled on the model: without dividends and
with a non-negative rate the binomial American call EQUALS the binomial
European call (so in particular they agree within 1e-4 at 200 steps). -/
lemma binomial_american_call_eq_european (ctx : Context) (S K r σ T : ℝ) (N : ℕ)
    (hσ : 0 < σ) (hT : 0 < T) (hN : 0 < N) (hr : 0 ≤ r) (hK : 0 ≤ K)
    (hd : crrD σ T N ≤ crrGrowth r T N) (hup : crrGrowth r T N ≤ crrU σ T N) :
    binomialAmericanCallSteps ctx S K r σ T N = binomialEuropeanCallSteps ctx S K r σ T N := by
  have hdu : crrU σ T N - crrD σ T N ≠ 0 :=
    sub_ne_zero.mpr (crrU_sub_crrD_pos σ T hσ hT N hN).ne'
  have hp := crrP_mem_unit r σ T N hσ hT hN hd hup
  have hD0 : 0 ≤ crrDisc r T N := (Real.exp_pos _).le
  have hD1 : crrDisc r T N ≤ 1 := by
    rw [crrDisc]
    have hdt : 0 ≤ T / N := le_of_lt (div_pos hT (by exact_mod_cast hN))
    have h := Real.exp_le_exp.mpr
      (show -(r * (T / N)) ≤ 0 by nlinarith [mul_nonneg hr hdt])
    rwa [Real.exp_zero] at h
  have h := amer_call_eq_euro S (crrU σ T N) (crrD σ T N) (crrDisc r T N)
    (crrP r σ T N) (crrGrowth r T N) K N (Real.exp_pos _).ne'
    (crrP_martingale r σ T N hdu) (crrDisc_mul_growth r T N) hD0 hD1 hp.1 hp.2 hK
    N (le_refl N) 0
  simp only [binomialAmericanCallSteps, binomialEuropeanCallSteps, crrAmerRoot,
    crrEuroRoot]
  exact h

/-! ### Strict early-exercise premium at the deep-ITM instance -/

lemma amer_strict_step (S u d D p : ℝ) (payoff : ℝ → ℝ) (N : ℕ)
    (hD : 0 < D) (hp0 : 0 ≤ p) (hp1 : p < 1) (k j : ℕ)
    (hpt : ∀ i, (rollStep D p)^[k] (crrTerminal S u d payoff N) i ≤
      crrAmerLevels S u d D p payoff N k i)
    (hstrict : (rollStep D p)^[k] (crrTerminal S u d payoff N) (j + 1) <
      crrAmerLevels S u d D p payoff N k (j + 1)) :
    (rollStep D p)^[k + 1] (crrTerminal S u d payoff N) j <
      crrAmerLevels S u d D p payoff N (k + 1) j := by
  rw [Function.iterate_succ_apply']
  simp only [crrAmerLevels]
  apply lt_max_iff.mpr
  left
  simp only [rollStep]
  have h1 := mul_le_mul_of_nonneg_left (hpt j) hp0
  have h2 := mul_lt_mul_of_pos_left hstrict (show (0 : ℝ) < 1 - p by linarith)
  have h3 := add_lt_add_of_le_of_lt h1 h2
  exact mul_lt_mul_of_pos_left h3 hD

lemma amer_strict_root (S u d D p : ℝ) (payoff : ℝ → ℝ) (N : ℕ)
    (hD : 0 < D) (hp0 : 0 ≤ p) (hp1 : p < 1) (hN : 1 ≤ N)
    (hbase : (rollStep D p)^[1] (crrTerminal S u d payoff N) (N - 1) <
      crrAmerLevels S u d D p payoff N 1 (N - 1)) :
    (rollStep D p)^[N] (crrTerminal S u d payoff N) 0 <
      crrAmerLevels S u d D p payoff N N 0 := by
  have hpt := amer_ge_euro S u d D p payoff N (le_of_lt hD) hp0 (le_of_lt hp1)
  have key : ∀ i, i ≤ N - 1 →
      (rollStep D p)^[1 + i] (crrTerminal S u d payoff N) (N - 1 - i) <
        crrAmerLevels S u d D p payoff N (1 + i) (N - 1 - i) := by
    intro i
    induction i with
    | zero => intro _; simpa using hbase
    | succ n ihn =>
        intro hle
        have hs := ihn (by omega)
        have hidx : N - 1 - (n + 1) + 1 = N - 1 - n := by omega
        have hstrictArg : (rollStep D p)^[1 + n] (crrTerminal S u d payoff N)
            (N - 1 - (n + 1) + 1) <
            crrAmerLevels S u d D p payoff N (1 + n) (N - 1 - (n + 1) + 1) := by
          rw [hidx]
          exact hs
        exact amer_strict_step S u d D p payoff N hD hp0 hp1 (1 + n)
          (N - 1 - (n + 1)) (hpt (1 + n)) hstrictArg
  have hfin := key (N - 1) (le_refl _)
  have h1 : 1 + (N - 1) = N := by omega
  have h2 : N - 1 - (N - 1) = 0 := by omega
  rw [h1, h2] at hfin
  exact hfin

lemma put_base_gap (S u d D p R K : ℝ) (m : ℕ)
    (hu : u ≠ 0) (hmart : p * u + (1 - p) * d = R) (hDR : D * R = 1)
    (hD1 : D < 1) (hK : 0 < K)
    (h1 : nodePrice S u d (m + 1) m < K)
    (h2 : nodePrice S u d (m + 1) (m + 1) < K)
    (h3 : nodePrice S u d m m < K) :
    (rollStep D p)^[1] (crrTerminal S u d (fun x => max (K - x) 0) (m + 1)) m <
      crrAmerLevels S u d D p (fun x => max (K - x) 0) (m + 1) 1 m := by
  have hLHS : (rollStep D p)^[1] (crrTerminal S u d (fun x => max (K - x) 0) (m + 1)) m =
      D * (p * crrTerminal S u d (fun x => max (K - x) 0) (m + 1) m +
        (1 - p) * crrTerminal S u d (fun x => max (K - x) 0) (m + 1) (m + 1)) := rfl
  have hamer1 : crrAmerLevels S u d D p (fun x => max (K - x) 0) (m + 1) 1 m =
      max ((rollStep D p)^[1] (crrTerminal S u d (fun x => max (K - x) 0) (m + 1)) m)
        (max (K - nodePrice S u d ((m + 1) - 1) m) 0) := rfl
  have hterm1 : crrTerminal S u d (fun x => max (K - x) 0) (m + 1) m =
      K - nodePrice S u d (m + 1) m := by
    show max (K - nodePrice S u d (m + 1) m) 0 = _
    exact max_eq_left (by linarith)
  have hterm2 : crrTerminal S u d (fun x => max (K - x) 0) (m + 1) (m + 1) =
      K - nodePrice S u d (m + 1) (m + 1) := by
    show max (K - nodePrice S u d (m + 1) (m + 1)) 0 = _
    exact max_eq_left (by linarith)
  have hsub : (m + 1) - 1 = m := by omega
  have hAval : D * (p * (K - nodePrice S u d (m + 1) m) +
      (1 - p) * (K - nodePrice S u d (m + 1) (m + 1))) =
      D * K - nodePrice S u d m m := by
    rw [nodePrice_succ_left, nodePrice_succ_right S u d hu]
    have expand : D * (p * (K - u * nodePrice S u d m m) +
        (1 - p) * (K - d * nodePrice S u d m m)) =
        D * K - D * ((p * u + (1 - p) * d) * nodePrice S u d m m) := by ring
    rw [expand, hmart, ← mul_assoc, hDR, one_mul]
  rw [hamer1, hLHS, hterm1, hterm2, hAval, hsub]
  apply lt_max_iff.mpr
  right
  rw [max_eq_left (by linarith)]
  nlinarith

lemma sqrt_inv200_lb : (0.002 : ℝ) ≤ Real.sqrt (1 / 200) := by
  rw [show (0.002 : ℝ) = Real.sqrt (0.002 ^ 2) by
    rw [Real.sqrt_sq (by norm_num)]]
  exact Real.sqrt_le_sqrt (by norm_num)

lemma sqrt_inv200_pos : (0 : ℝ) < Real.sqrt (1 / 200) :=
  Real.sqrt_pos.mpr (by norm_num)

lemma crrU_80 : crrU 0.2 1 200 = Real.exp (0.2 * Real.sqrt (1 / 200)) := by
  simp only [crrU]
  norm_num

lemma crrD_80 : crrD 0.2 1 200 = Real.exp (-(0.2 * Real.sqrt (1 / 200))) := by
  simp only [crrD]
  norm_num

lemma crrG_80 : crrGrowth 0.05 1 200 = Real.exp 0.00025 := by
  simp only [crrGrowth]
  norm_num

lemma crrDisc_80 : crrDisc 0.05 1 200 = Real.exp (-0.00025) := by
  simp only [crrDisc]
  norm_num

lemma a80_bounds : (0.0004 : ℝ) ≤ 0.2 * Real.sqrt (1 / 200) := by
  nlinarith [sqrt_inv200_lb]

/-- At the deep-ITM put instance S=80, K=100, r=0.05, sigma=0.2, T=1, N=200
the modelled binomial American put is strictly greater than the binomial
European put: at the lowest level-199 node both children are in the money,
the rolled-back value is `K*exp(-r*dt) - S_node < K - S_node`, and the
strict gap propagates down the lattice diagonal to the root. -/
lemma amer_put_strict_concrete :
    binomialEuropeanPutSteps contextNew 80 100 0.05 0.2 1 200 <
      binomialAmericanPutSteps contextNew 80 100 0.05 0.2 1 200 := by
  have ha : (0 : ℝ) < 0.2 * Real.sqrt (1 / 200) := by
    nlinarith [sqrt_inv200_pos]
  have hu0 : Real.exp (0.2 * Real.sqrt (1 / 200)) ≠ 0 := (Real.exp_pos _).ne'
  have hdu : crrD 0.2 1 200 < crrU 0.2 1 200 :=
    crrU_sub_crrD_pos 0.2 1 (by norm_num) (by norm_num) 200 (by norm_num)
  have hdune : crrU 0.2 1 200 - crrD 0.2 1 200 ≠ 0 := sub_ne_zero.mpr hdu.ne'
  have hmart := crrP_martingale 0.05 0.2 1 200 hdune
  have hDR := crrDisc_mul_growth 0.05 1 200
  have hp0 : 0 ≤ crrP 0.05 0.2 1 200 := by
    have hd_le : crrD 0.2 1 200 ≤ crrGrowth 0.05 1 200 := by
      rw [crrD_80, crrG_80]
      exact le_of_lt (Real.exp_lt_exp.mpr (by nlinarith))
    exact (crrP_mem_unit 0.05 0.2 1 200 (by norm_num) (by norm_num) (by norm_num)
      hd_le (by
        rw [crrG_80, crrU_80]
        exact le_of_lt (Real.exp_lt_exp.mpr (by nlinarith [a80_bounds])))).1
  have hp1 : crrP 0.05 0.2 1 200 < 1 := by
    simp only [crrP]
    rw [div_lt_one (by linarith)]
    have hlt : crrGrowth 0.05 1 200 < crrU 0.2 1 200 := by
      rw [crrG_80, crrU_80]
      exact Real.exp_lt_exp.mpr (by nlinarith [a80_bounds])
    linarith
  have hD0 : (0 : ℝ) < crrDisc 0.05 1 200 := Real.exp_pos _
  have hD1 : crrDisc 0.05 1 200 < 1 := by
    rw [crrDisc_80]
    have h := Real.exp_lt_exp.mpr (show (-0.00025 : ℝ) < 0 by norm_num)
    rwa [Real.exp_zero] at h
  have hnode : ∀ m j : ℕ, nodePrice 80 (crrU 0.2 1 200) (crrD 0.2 1 200) m j =
      80 * Real.exp (0.2 * Real.sqrt (1 / 200) * m -
        2 * (0.2 * Real.sqrt (1 / 200)) * j) := by
    intro m j
    rw [crrU_80, crrD_80]
    exact nodePrice_exp 80 (0.2 * Real.sqrt (1 / 200)) m j
  have hnodeBound : ∀ m j : ℕ, (m : ℝ) < 2 * j + 3 →
      nodePrice 80 (crrU 0.2 1 200) (crrD 0.2 1 200) m j < 100 := by
    intro m j hmj
    rw [hnode]
    have hexp : 0.2 * Real.sqrt (1 / 200) * m - 2 * (0.2 * Real.sqrt (1 / 200)) * j ≤
        3 * (0.2 * Real.sqrt (1 / 200)) := by nlinarith
    have hsmall : Real.sqrt (1 / 200) ≤ 0.1 := by
      rw [show (0.1 : ℝ) = Real.sqrt (0.1 ^ 2) by rw [Real.sqrt_sq (by norm_num)]]
      exact Real.sqrt_le_sqrt (by norm_num)
    have hle := Real.exp_le_exp.mpr hexp
    have hle2 := Real.exp_le_exp.mpr (show 3 * (0.2 * Real.sqrt (1 / 200)) ≤ 0.06 by
      nlinarith)
    have hy : Real.exp 0.06 < 1.25 := by
      have h24 : Real.exp 0.24 < 2 := by
        have hlog := Real.log_two_gt_d9
        have h := Real.exp_lt_exp.mpr (show (0.24 : ℝ) < Real.log 2 by linarith)
        rwa [Real.exp_log (by norm_num)] at h
      have hpow : Real.exp 0.06 ^ 4 = Real.exp 0.24 := by
        rw [show (0.24 : ℝ) = (4 : ℕ) * 0.06 by norm_num, Real.exp_nat_mul]
      by_contra hcon
      push_neg at hcon
      have hqpos := Real.exp_pos (0.06 : ℝ)
      have h2 : (1.25 : ℝ) ^ 2 ≤ Real.exp 0.06 ^ 2 := by nlinarith
      have h4c : (1.25 : ℝ) ^ 4 ≤ Real.exp 0.06 ^ 4 := by nlinarith
      rw [hpow] at h4c
      norm_num at h4c
      linarith
    linarith [hle, hle2, hy]
  have hbase := put_base_gap 80 (crrU 0.2 1 200) (crrD 0.2 1 200)
    (crrDisc 0.05 1 200) (crrP 0.05 0.2 1 200) (crrGrowth 0.05 1 200) 100 199
    (Real.exp_pos _).ne' hmart hDR hD1 (by norm_num)
    (hnodeBound 200 199 (by norm_num)) (hnodeBound 200 200 (by norm_num))
    (hnodeBound 199 199 (by norm_num))
  have hroot := amer_strict_root 80 (crrU 0.2 1 200) (crrD 0.2 1 200)
    (crrDisc 0.05 1 200) (crrP 0.05 0.2 1 200) (fun x => max (100 - x) 0) 200
    hD0 hp0 hp1 (by norm_num) hbase
  exact hroot

/-! ### Non-negativity of the Monte Carlo kernel -/

lemma isWeight_nonneg (b : Bool) (μ σ T : ℝ) (dts zs : List ℝ) :
    0 ≤ isWeight b μ σ T dts zs := by
  unfold isWeight
  split
  · exact (Real.exp_pos _).le
  · norm_num

lemma mcOneSample_fst_nonneg (payoff : List ℝ → ℝ) (hpay : ∀ l, 0 ≤ payoff l)
    (anti strat isOn : Bool) (μ r σ S0 T : ℝ) (dts : List ℝ) (kIdx nTot s : ℕ) :
    0 ≤ (mcOneSample payoff anti strat isOn μ r σ S0 T dts kIdx nTot s).1.1 := by
  simp only [mcOneSample]
  split
  · apply div_nonneg _ (by norm_num)
    exact add_nonneg (mul_nonneg (isWeight_nonneg _ _ _ _ _ _) (hpay _))
      (mul_nonneg (isWeight_nonneg _ _ _ _ _ _) (hpay _))
  · exact mul_nonneg (isWeight_nonneg _ _ _ _ _ _) (hpay _)

lemma mcSamples_fst_nonneg (payoff : List ℝ → ℝ) (hpay : ∀ l, 0 ≤ payoff l)
    (anti strat isOn : Bool) (μ r σ S0 T : ℝ) (dts : List ℝ) (nTot : ℕ) :
    ∀ n k s : ℕ, ∀ q ∈ (mcSamples payoff anti strat isOn μ r σ S0 T dts nTot n k s).1,
      0 ≤ q.1 := by
  intro n
  induction n with
  | zero =>
      intro k s q hq
      simp [mcSamples] at hq
  | succ m ih =>
      intro k s q hq
      simp only [mcSamples, List.mem_cons] at hq
      rcases hq with h | h
      · subst h
        exact mcOneSample_fst_nonneg payoff hpay anti strat isOn μ r σ S0 T dts k nTot s
      · exact ih _ _ q h

lemma listMean_nonneg (l : List ℝ) (h : ∀ x ∈ l, 0 ≤ x) : 0 ≤ listMean l := by
  unfold listMean
  exact div_nonneg (List.sum_nonneg h) (Nat.cast_nonneg _)

/-- Without control variates, the MC kernel discounts an average of
non-negative weighted payoffs, so the returned price is non-negative. -/
lemma mcKernel_fst_nonneg (ctx : Context) (hcv : ctx.controlVariatesEnabled = false)
    (S r σ T : ℝ) (dts : List ℝ) (payoff : List ℝ → ℝ) (hpay : ∀ l, 0 ≤ payoff l) :
    0 ≤ (mcKernel ctx S r σ T dts payoff).1 := by
  simp only [mcKernel, hcv, Bool.false_eq_true, if_false]
  apply mul_nonneg (Real.exp_pos _).le
  apply listMean_nonneg
  intro x hx
  simp only [List.mem_map] at hx
  obtain ⟨q, hq, rfl⟩ := hx
  exact mcSamples_fst_nonneg payoff hpay _ _ _ _ _ _ _ _ _ _ _ _ _ q hq

lemma foldr_min_le_init (a : ℝ) (l : List ℝ) : l.foldr min a ≤ a := by
  induction l with
  | nil => exact le_refl a
  | cons x xs ih => exact le_trans (min_le_right _ _) ih

lemma init_le_foldr_max (a : ℝ) (l : List ℝ) : a ≤ l.foldr max a := by
  induction l with
  | nil => exact le_refl a
  | cons x xs ih => exact le_trans ih (le_max_right _ _)

lemma lookback_float_call_nonneg (l : List ℝ) : 0 ≤ l.getLastD 0 - listMin l := by
  have h := foldr_min_le_init (l.getLastD 0) l
  unfold listMin
  linarith

lemma lookback_float_put_nonneg (l : List ℝ) : 0 ≤ listMax l - l.getLastD 0 := by
  have h := init_le_foldr_max (l.getLastD 0) l
  unfold listMax
  linarith

lemma barrierPayoff_nonneg (K r T H rebate : ℝ) (hreb : 0 ≤ rebate) (btype : ℕ)
    (l : List ℝ) : 0 ≤ barrierPayoff K r T H rebate btype l := by
  have hrebE : 0 ≤ rebate * Real.exp (-(r * T)) := mul_nonneg hreb (Real.exp_pos _).le
  unfold barrierPayoff
  split
  · split
    · exact hrebE
    · exact le_max_right _ _
  · split
    · split
      · exact le_max_right _ _
      · exact hrebE
    · split
      · split
        · exact hrebE
        · exact le_max_right _ _
      · split
        · exact le_max_right _ _
        · exact hrebE

/-! ### Non-negativity of the LSM engine -/

lemma lsmPaths_weight_nonneg (anti strat isOn : Bool) (μ r σ S0 T : ℝ)
    (dts : List ℝ) (nTot : ℕ) :
    ∀ n k s : ℕ, ∀ q ∈ (lsmPaths anti strat isOn μ r σ S0 T dts nTot n k s).1,
      0 ≤ q.2 := by
  intro n
  induction n with
  | zero =>
      intro k s q hq
      simp [lsmPaths] at hq
  | succ m ih =>
      intro k s q hq
      simp only [lsmPaths] at hq
      split at hq
      · simp only [List.mem_cons] at hq
        rcases hq with h | h | h
        · subst h
          exact isWeight_nonneg _ _ _ _ _ _
        · subst h
          exact isWeight_nonneg _ _ _ _ _ _
        · exact ih _ _ q h
      · simp only [List.mem_cons] at hq
        rcases hq with h | h
        · subst h
          exact isWeight_nonneg _ _ _ _ _ _
        · exact ih _ _ q h

lemma lsmBackstep_inv (payoff : ℝ → ℝ) (hpay : ∀ x, 0 ≤ payoff x) (r : ℝ)
    (times : List ℝ) (m : ℕ) (st : List ((List ℝ × ℝ) × ℝ × ℕ))
    (hst : ∀ e ∈ st, 0 ≤ e.1.2 ∧ 0 ≤ e.2.1) :
    ∀ e ∈ lsmBackstep payoff r times m st, 0 ≤ e.1.2 ∧ 0 ≤ e.2.1 := by
  intro e he
  simp only [lsmBackstep] at he
  split at he
  · exact hst e he
  · simp only [List.mem_map] at he
    obtain ⟨e0, he0, rfl⟩ := he
    split
    · exact ⟨(hst e0 he0).1, hpay _⟩
    · exact hst e0 he0

lemma lsmFold_inv (payoff : ℝ → ℝ) (hpay : ∀ x, 0 ≤ payoff x) (r : ℝ)
    (times : List ℝ) :
    ∀ (ms : List ℕ) (st : List ((List ℝ × ℝ) × ℝ × ℕ)),
      (∀ e ∈ st, 0 ≤ e.1.2 ∧ 0 ≤ e.2.1) →
      ∀ e ∈ ms.foldr (lsmBackstep payoff r times) st, 0 ≤ e.1.2 ∧ 0 ≤ e.2.1 := by
  intro ms
  induction ms with
  | nil => intro st hst; exact hst
  | cons m rest ih =>
      intro st hst
      exact lsmBackstep_inv payoff hpay r times m _ (ih st hst)

/-- The LSM price is a discounted average of cash flows that are always
exercise payoffs, hence non-negative for non-negative payoffs. -/
lemma lsmPriceOn_fst_nonneg (ctx : Context) (S r σ : ℝ) (dts : List ℝ)
    (payoff : ℝ → ℝ) (hpay : ∀ x, 0 ≤ payoff x) :
    0 ≤ (lsmPriceOn ctx S r σ dts payoff).1 := by
  simp only [lsmPriceOn, lsmRun]
  apply div_nonneg _ (Nat.cast_nonneg _)
  apply List.sum_nonneg
  intro x hx
  simp only [List.mem_map] at hx
  obtain ⟨e, he, rfl⟩ := hx
  have hinv := lsmFold_inv payoff hpay r (cumTimes dts)
    (List.range' 1 (dts.length - 1)) _ ?_ e he
  · exact mul_nonneg (mul_nonneg hinv.1 hinv.2) (Real.exp_pos _).le
  · intro e0 he0
    simp only [List.mem_map] at he0
    obtain ⟨q, hq, rfl⟩ := he0
    exact ⟨lsmPaths_weight_nonneg _ _ _ _ _ _ _ _ _ _ _ _ _ q hq, hpay _⟩

/-- The exact no-dividend equality at the ATM instance S=K=100, r=0.05,
sigma=0.2, T=1 with 200 lattice steps: the modelled binomial American call
equals the binomial European call (hence agrees within 1e-4). -/
lemma binomial_american_call_eq_euro_atm :
    binomialAmericanCallSteps contextNew 100 100 0.05 0.2 1 200 =
      binomialEuropeanCallSteps contextNew 100 100 0.05 0.2 1 200 := by
  apply binomial_american_call_eq_european contextNew 100 100 0.05 0.2 1 200
    (by norm_num) (by norm_num) (by norm_num) (by norm_num) (by norm_num)
  · rw [crrD_80, crrG_80]
    exact Real.exp_le_exp.mpr (by nlinarith [sqrt_inv200_pos])
  · rw [crrG_80, crrU_80]
    exact Real.exp_le_exp.mpr (by nlinarith [a80_bounds])

/-! ### Claim theorems: non-negativity, determinism, American dominance -/

/-- Claim C1 (amended): every Monte Carlo pricing operation (European,
Asian, barrier with non-negative rebate, lookback) returns a price ≥ 0 when
control variates are disabled; the LSM-based operations (American, LSM,
Bermudan) return a price ≥ 0 unconditionally; and every binomial-lattice
operation returns a price ≥ 0 whenever the CRR risk-neutral probability lies
in [0,1], i.e. `d ≤ exp(r*dt) ≤ u`.  (The claim as stated is refuted by the
counterexample: outside that regime the lattice rollback weight `1-p` is
negative and the price can be negative; the spec's control-variate
adjustment is likewise not bounded below, so it is excluded.  Finiteness is
inherent to the real-valued model.) -/
theorem prices_nonneg_amended :
    (∀ (ctx : Context) (S K r σ T : ℝ), ctx.controlVariatesEnabled = false →
      0 ≤ (europeanCall ctx S K r σ T).1 ∧ 0 ≤ (europeanPut ctx S K r σ T).1) ∧
    (∀ (ctx : Context) (S K r σ T : ℝ) (nObs : ℕ),
      ctx.controlVariatesEnabled = false →
      0 ≤ (asianArithmeticCall ctx S K r σ T nObs).1 ∧
      0 ≤ (asianArithmeticPut ctx S K r σ T nObs).1) ∧
    (∀ (ctx : Context) (S K r σ T H rebate : ℝ) (btype : ℕ),
      ctx.controlVariatesEnabled = false → 0 ≤ rebate →
      0 ≤ (barrierCall ctx S K r σ T H btype rebate).1) ∧
    (∀ (ctx : Context) (S K r σ T : ℝ) (mode : ℕ),
      ctx.controlVariatesEnabled = false →
      0 ≤ (lookbackCall ctx S K r σ T mode).1 ∧
      0 ≤ (lookbackPut ctx S K r σ T mode).1) ∧
    (∀ (ctx : Context) (S K r σ T : ℝ) (ep : ℕ),
      0 ≤ (americanCall ctx S K r σ T ep).1 ∧ 0 ≤ (americanPut ctx S K r σ T ep).1) ∧
    (∀ (ctx : Context) (S K r σ T : ℝ) (nDates : ℕ),
      0 ≤ (lsmAmericanPut ctx S K r σ T nDates).1 ∧
      0 ≤ (lsmAmericanCall ctx S K r σ T nDates).1 ∧
      0 ≤ (lsmAmericanPutDefault ctx S K r σ T).1 ∧
      0 ≤ (lsmAmericanCallDefault ctx S K r σ T).1) ∧
    (∀ (ctx : Context) (S K r σ : ℝ) (dates : List ℝ),
      0 ≤ (bermudanCall ctx S K r σ dates).1) ∧
    (∀ (ctx : Context) (S K r σ T : ℝ) (N : ℕ), 0 < σ → 0 < T → 0 < N →
      crrD σ T N ≤ crrGrowth r T N → crrGrowth r T N ≤ crrU σ T N →
      0 ≤ binomialEuropeanCallSteps ctx S K r σ T N ∧
      0 ≤ binomialEuropeanPutSteps ctx S K r σ T N ∧
      0 ≤ binomialAmericanCallSteps ctx S K r σ T N ∧
      0 ≤ binomialAmericanPutSteps ctx S K r σ T N) ∧
    (∀ (ctx : Context) (S K r σ T : ℝ), 0 < σ → 0 < T → 0 < ctx.binomialSteps →
      crrD σ T ctx.binomialSteps ≤ crrGrowth r T ctx.binomialSteps →
      crrGrowth r T ctx.binomialSteps ≤ crrU σ T ctx.binomialSteps →
      0 ≤ binomialEuropeanCall ctx S K r σ T ∧
      0 ≤ binomialEuropeanPut ctx S K r σ T ∧
      0 ≤ binomialAmericanCall ctx S K r σ T ∧
      0 ≤ binomialAmericanPut ctx S K r σ T) := by
  have hlattice : ∀ (ctx : Context) (S K r σ T : ℝ) (N : ℕ), 0 < σ → 0 < T → 0 < N →
      crrD σ T N ≤ crrGrowth r T N → crrGrowth r T N ≤ crrU σ T N →
      0 ≤ binomialEuropeanCallSteps ctx S K r σ T N ∧
      0 ≤ binomialEuropeanPutSteps ctx S K r σ T N ∧
      0 ≤ binomialAmericanCallSteps ctx S K r σ T N ∧
      0 ≤ binomialAmericanPutSteps ctx S K r σ T N := by
    intro ctx S K r σ T N hσ hT hN hd hup
    have hp := crrP_mem_unit r σ T N hσ hT hN hd hup
    have hD : (0 : ℝ) ≤ crrDisc r T N := (Real.exp_pos _).le
    refine ⟨?_, ?_, ?_, ?_⟩
    · exact iterate_rollStep_nonneg (crrDisc r T N) (crrP r σ T N) hD hp.1 hp.2
        (crrTerminal S (crrU σ T N) (crrD σ T N) (fun x => max (x - K) 0) N)
        (fun j => le_max_right _ _) N 0
    · exact iterate_rollStep_nonneg (crrDisc r T N) (crrP r σ T N) hD hp.1 hp.2
        (crrTerminal S (crrU σ T N) (crrD σ T N) (fun x => max (K - x) 0) N)
        (fun j => le_max_right _ _) N 0
    · exact amer_nonneg S (crrU σ T N) (crrD σ T N) (crrDisc r T N) (crrP r σ T N)
        (fun x => max (x - K) 0) N hD hp.1 hp.2 (fun x => le_max_right _ _) N 0
    · exact amer_nonneg S (crrU σ T N) (crrD σ T N) (crrDisc r T N) (crrP r σ T N)
        (fun x => max (K - x) 0) N hD hp.1 hp.2 (fun x => le_max_right _ _) N 0
  refine ⟨?_, ?_, ?_, ?_, ?_, ?_, ?_, hlattice, ?_⟩
  · intro ctx S K r σ T hcv
    exact ⟨mcKernel_fst_nonneg ctx hcv S r σ T _ _ (fun l => le_max_right _ _),
      mcKernel_fst_nonneg ctx hcv S r σ T _ _ (fun l => le_max_right _ _)⟩
  · intro ctx S K r σ T nObs hcv
    exact ⟨mcKernel_fst_nonneg ctx hcv S r σ T _ _ (fun l => le_max_right _ _),
      mcKernel_fst_nonneg ctx hcv S r σ T _ _ (fun l => le_max_right _ _)⟩
  · intro ctx S K r σ T H rebate btype hcv hreb
    exact mcKernel_fst_nonneg ctx hcv S r σ T _ _
      (barrierPayoff_nonneg K r T H rebate hreb btype)
  · intro ctx S K r σ T mode hcv
    constructor
    · refine mcKernel_fst_nonneg ctx hcv S r σ T _ _ ?_
      intro l
      dsimp only
      split
      · exact le_max_right _ _
      · exact lookback_float_call_nonneg l
    · refine mcKernel_fst_nonneg ctx hcv S r σ T _ _ ?_
      intro l
      dsimp only
      split
      · exact le_max_right _ _
      · exact lookback_float_put_nonneg l
  · intro ctx S K r σ T ep
    exact ⟨lsmPriceOn_fst_nonneg ctx S r σ _ _ (fun x => le_max_right _ _),
      lsmPriceOn_fst_nonneg ctx S r σ _ _ (fun x => le_max_right _ _)⟩
  · intro ctx S K r σ T nDates
    exact ⟨lsmPriceOn_fst_nonneg ctx S r σ _ _ (fun x => le_max_right _ _),
      lsmPriceOn_fst_nonneg ctx S r σ _ _ (fun x => le_max_right _ _),
      lsmPriceOn_fst_nonneg ctx S r σ _ _ (fun x => le_max_right _ _),
      lsmPriceOn_fst_nonneg ctx S r σ _ _ (fun x => le_max_right _ _)⟩
  · intro ctx S K r σ dates
    exact lsmPriceOn_fst_nonneg ctx S r σ _ _ (fun x => le_max_right _ _)
  · intro ctx S K r σ T hσ hT hN hd hup
    exact hlattice ctx S K r σ T ctx.binomialSteps hσ hT hN hd hup

/-- Claim C1 witness: the amended non-negativity theorem applied at concrete
inputs, with every hypothesis discharged there. -/
theorem prices_nonneg_amended_witness :
    contextNew.controlVariatesEnabled = false ∧ (0 : ℝ) ≤ 0 ∧
    0 ≤ (europeanCall contextNew 100 100 0.05 0.2 1).1 ∧
    0 ≤ (barrierCall contextNew 100 100 0.05 0.2 1 120 0 0).1 ∧
    0 ≤ (americanPut contextNew 100 100 0.05 0.2 1 50).1 ∧
    crrD 1 1 1 ≤ crrGrowth 0 1 1 ∧ crrGrowth 0 1 1 ≤ crrU 1 1 1 ∧
    0 ≤ binomialAmericanPutSteps contextNew 100 100 0 1 1 1 := by
  have hcv : contextNew.controlVariatesEnabled = false := rfl
  have hg : crrGrowth 0 1 1 = Real.exp 0 := by simp [crrGrowth]
  have hd : crrD 1 1 1 ≤ crrGrowth 0 1 1 := by
    rw [crrD_one, hg]
    exact Real.exp_le_exp.mpr (by norm_num)
  have hup : crrGrowth 0 1 1 ≤ crrU 1 1 1 := by
    rw [hg, crrU_one]
    exact Real.exp_le_exp.mpr (by norm_num)
  exact ⟨hcv, le_refl 0,
    (prices_nonneg_amended.1 contextNew 100 100 0.05 0.2 1 hcv).1,
    prices_nonneg_amended.2.2.1 contextNew 100 100 0.05 0.2 1 120 0 0 hcv (le_refl 0),
    (prices_nonneg_amended.2.2.2.2.1 contextNew 100 100 0.05 0.2 1 50).2,
    hd, hup,
    (prices_nonneg_amended.2.2.2.2.2.2.2.1 contextNew 100 100 0 1 1 1 (by norm_num)
      (by norm_num) (by norm_num) hd hup).2.2.2⟩

/-- Claim C2: every pricing operation is a pure function of the seed, the
context configuration and its arguments: two calls on contexts that agree on
every configuration field, after setting the same seed, return identical
prices for identical arguments (the model has no other state the RNG stream
could depend on). -/
theorem pricing_deterministic :
    ∀ (c1 c2 : Context) (s : ℕ),
      c1.numSimulations = c2.numSimulations →
      c1.antitheticEnabled = c2.antitheticEnabled →
      c1.controlVariatesEnabled = c2.controlVariatesEnabled →
      c1.stratifiedEnabled = c2.stratifiedEnabled →
      c1.importanceSamplingEnabled = c2.importanceSamplingEnabled →
      c1.isDriftShift = c2.isDriftShift →
      c1.binomialSteps = c2.binomialSteps →
      ∀ (S K r σ T H rebate : ℝ) (nObs btype mode ep nDates N : ℕ) (dates : List ℝ),
        (europeanCall (contextSetSeed c1 s) S K r σ T).1 =
          (europeanCall (contextSetSeed c2 s) S K r σ T).1 ∧
        (europeanPut (contextSetSeed c1 s) S K r σ T).1 =
          (europeanPut (contextSetSeed c2 s) S K r σ T).1 ∧
        (asianArithmeticCall (contextSetSeed c1 s) S K r σ T nObs).1 =
          (asianArithmeticCall (contextSetSeed c2 s) S K r σ T nObs).1 ∧
        (asianArithmeticPut (contextSetSeed c1 s) S K r σ T nObs).1 =
          (asianArithmeticPut (contextSetSeed c2 s) S K r σ T nObs).1 ∧
        (barrierCall (contextSetSeed c1 s) S K r σ T H btype rebate).1 =
          (barrierCall (contextSetSeed c2 s) S K r σ T H btype rebate).1 ∧
        (lookbackCall (contextSetSeed c1 s) S K r σ T mode).1 =
          (lookbackCall (contextSetSeed c2 s) S K r σ T mode).1 ∧
        (lookbackPut (contextSetSeed c1 s) S K r σ T mode).1 =
          (lookbackPut (contextSetSeed c2 s) S K r σ T mode).1 ∧
        (americanCall (contextSetSeed c1 s) S K r σ T ep).1 =
          (americanCall (contextSetSeed c2 s) S K r σ T ep).1 ∧
        (americanPut (contextSetSeed c1 s) S K r σ T ep).1 =
          (americanPut (contextSetSeed c2 s) S K r σ T ep).1 ∧
        (lsmAmericanPut (contextSetSeed c1 s) S K r σ T nDates).1 =
          (lsmAmericanPut (contextSetSeed c2 s) S K r σ T nDates).1 ∧
        (lsmAmericanCall (contextSetSeed c1 s) S K r σ T nDates).1 =
          (lsmAmericanCall (contextSetSeed c2 s) S K r σ T nDates).1 ∧
        (lsmAmericanPutDefault (contextSetSeed c1 s) S K r σ T).1 =
          (lsmAmericanPutDefault (contextSetSeed c2 s) S K r σ T).1 ∧
        (lsmAmericanCallDefault (contextSetSeed c1 s) S K r σ T).1 =
          (lsmAmericanCallDefault (contextSetSeed c2 s) S K r σ T).1 ∧
        (bermudanCall (contextSetSeed c1 s) S K r σ dates).1 =
          (bermudanCall (contextSetSeed c2 s) S K r σ dates).1 ∧
        binomialEuropeanCall (contextSetSeed c1 s) S K r σ T =
          binomialEuropeanCall (contextSetSeed c2 s) S K r σ T ∧
        binomialEuropeanPut (contextSetSeed c1 s) S K r σ T =
          binomialEuropeanPut (contextSetSeed c2 s) S K r σ T ∧
        binomialAmericanCall (contextSetSeed c1 s) S K r σ T =
          binomialAmericanCall (contextSetSeed c2 s) S K r σ T ∧
        binomialAmericanPut (contextSetSeed c1 s) S K r σ T =
          binomialAmericanPut (contextSetSeed c2 s) S K r σ T ∧
        binomialEuropeanCallSteps (contextSetSeed c1 s) S K r σ T N =
          binomialEuropeanCallSteps (contextSetSeed c2 s) S K r σ T N ∧
        binomialEuropeanPutSteps (contextSetSeed c1 s) S K r σ T N =
          binomialEuropeanPutSteps (contextSetSeed c2 s) S K r σ T N ∧
        binomialAmericanCallSteps (contextSetSeed c1 s) S K r σ T N =
          binomialAmericanCallSteps (contextSetSeed c2 s) S K r σ T N ∧
        binomialAmericanPutSteps (contextSetSeed c1 s) S K r σ T N =
          binomialAmericanPutSteps (contextSetSeed c2 s) S K r σ T N := by
  intro c1 c2 s h1 h2 h3 h4 h5 h6 h7
  have hctx : contextSetSeed c1 s = contextSetSeed c2 s := by
    cases c1
    cases c2
    simp only at h1 h2 h3 h4 h5 h6 h7
    subst h1
    subst h2
    subst h3
    subst h4
    subst h5
    subst h6
    subst h7
    rfl
  intro S K r σ T H rebate nObs btype mode ep nDates N dates
  rw [hctx]
  simp

/-- Claim C2 witness: two contexts that differ in their pre-seed RNG state
(and the seed field itself) but share every configuration field give the same
European call price after `context_set_seed 42`. -/
theorem pricing_deterministic_witness :
    contextNew.numSimulations =
      ({ contextNew with rngState := 12345, seed := 7 } : Context).numSimulations ∧
    (europeanCall (contextSetSeed contextNew 42) 100 100 0.05 0.2 1).1 =
      (europeanCall
        (contextSetSeed { contextNew with rngState := 12345, seed := 7 } 42)
        100 100 0.05 0.2 1).1 :=
  ⟨rfl, (pricing_deterministic contextNew
    { contextNew with rngState := 12345, seed := 7 } 42 rfl rfl rfl rfl rfl rfl rfl
    100 100 0.05 0.2 1 0 0 0 0 0 0 0 0 []).1⟩

/-- Claim C6 (amended): whenever the CRR probability lies in [0,1]
(`d ≤ exp(r*dt) ≤ u`) the binomial American put dominates the binomial
European put; unconditionally the binomial American put is at least the
immediate-exercise value `max(K-S,0)`; and at the deep-ITM instance S=80,
K=100, r=0.05, sigma=0.2, T=1 with 200 steps the American put is ≥ 20 and
strictly greater than the European put.  (The claim's unrestricted "for
every admitted parameter set" ordering is refuted by the counterexample
where p > 1; the LSM-priced American put is outside this statement since its
value depends on the realized PRNG stream the spec leaves open.) -/
theorem american_put_dominance_amended :
    (∀ (ctx : Context) (S K r σ T : ℝ) (N : ℕ), 0 < σ → 0 < T → 0 < N →
      crrD σ T N ≤ crrGrowth r T N → crrGrowth r T N ≤ crrU σ T N →
      binomialEuropeanPutSteps ctx S K r σ T N ≤
        binomialAmericanPutSteps ctx S K r σ T N) ∧
    (∀ (ctx : Context) (S K r σ T : ℝ) (N : ℕ),
      max (K - S) 0 ≤ binomialAmericanPutSteps ctx S K r σ T N) ∧
    20 ≤ binomialAmericanPutSteps contextNew 80 100 0.05 0.2 1 200 ∧
    binomialEuropeanPutSteps contextNew 80 100 0.05 0.2 1 200 <
      binomialAmericanPutSteps contextNew 80 100 0.05 0.2 1 200 := by
  refine ⟨?_, ?_, ?_, amer_put_strict_concrete⟩
  · intro ctx S K r σ T N hσ hT hN hd hup
    have hp := crrP_mem_unit r σ T N hσ hT hN hd hup
    exact amer_ge_euro S (crrU σ T N) (crrD σ T N) (crrDisc r T N) (crrP r σ T N)
      (fun x => max (K - x) 0) N (Real.exp_pos _).le hp.1 hp.2 N 0
  · intro ctx S K r σ T N
    exact amerRoot_ge_intrinsic S (crrU σ T N) (crrD σ T N) (crrDisc r T N)
      (crrP r σ T N) (fun x => max (K - x) 0) N
  · have h := amerRoot_ge_intrinsic 80 (crrU 0.2 1 200) (crrD 0.2 1 200)
      (crrDisc 0.05 1 200) (crrP 0.05 0.2 1 200) (fun x => max (100 - x) 0) 200
    calc (20 : ℝ) = max ((100 : ℝ) - 80) 0 := by norm_num
      _ ≤ _ := h

/-- Claim C6 witness: the dominance clause evaluated at a concrete parameter
set with the CRR probability inside [0,1]. -/
theorem american_put_dominance_amended_witness :
    (0 : ℝ) < 1 ∧ 0 < (1 : ℕ) ∧ crrD 1 1 1 ≤ crrGrowth 0 1 1 ∧
    crrGrowth 0 1 1 ≤ crrU 1 1 1 ∧
    binomialEuropeanPutSteps contextNew 100 100 0 1 1 1 ≤
      binomialAmericanPutSteps contextNew 100 100 0 1 1 1 := by
  have hg : crrGrowth 0 1 1 = Real.exp 0 := by simp [crrGrowth]
  have hd : crrD 1 1 1 ≤ crrGrowth 0 1 1 := by
    rw [crrD_one, hg]
    exact Real.exp_le_exp.mpr (by norm_num)
  have hup : crrGrowth 0 1 1 ≤ crrU 1 1 1 := by
    rw [hg, crrU_one]
    exact Real.exp_le_exp.mpr (by norm_num)
  exact ⟨by norm_num, by norm_num, hd, hup,
    american_put_dominance_amended.1 contextNew 100 100 0 1 1 1 (by norm_num)
      (by norm_num) (by norm_num) hd hup⟩

end MCOptions
